import Mathlib

/-!
Shallow embedding of the Metrics Aggregation & Retention Engine of
`src/js/metrics.js` (the `MetricsEngine` IIFE with daily-stats support,
lines 306-971 of the concatenated source).

Modelling conventions:
* Calendar days ("YYYY-MM-DD" UTC strings in the source) are represented by
  `Day := Int`, the number of days since the Unix epoch.  For epoch
  milliseconds `ms`, `toISOString().slice(0, 10)` corresponds to flooring
  `ms / 86400000`; lexicographic order on the date strings agrees with
  numeric order on day numbers, and `new Date(day + 'T00:00:00Z').getTime()`
  corresponds to `day * DAY_MS`.
* JS objects used as maps (`dailyStats`, `firstSeen`, `dayBuckets`, ...) are
  association lists in key-insertion order; `objGet`/`objSet`/`objDelete`
  model property read / write / `delete`.  JS `Set`s are duplicate-free
  lists in insertion order, built with `setAdd`.
* `Date.now()` and "today" are explicit parameters (`now : Int` in epoch
  milliseconds, `today : Day`).
* Absent (`undefined`) fields are `Option.none`; JS truthiness on strings
  treats `""` like `undefined` (helper `strOr`), and on numbers treats `0`
  like `undefined` (helper `numOr`).  The hash-only transaction form
  `{ hash: tx }` is represented with `""`/`none` for the missing fields,
  which is indistinguishable from `undefined` under every truthiness test
  the engine performs.
* `localStorage` persistence is outside the engine state; the only
  in-memory effect of `saveCache()` is its call to `saveDailyStats()`,
  which merges the live rollups into `dailyStats`, so `saveCache` is
  modelled by `saveDailyStats`.
-/

namespace PftMetrics

open scoped List

/-- `MAX_LEDGERS` constant of metrics.js. -/
def MAX_LEDGERS : Nat := 5000

/-- `MAX_DAILY_DAYS` constant of metrics.js. -/
def MAX_DAILY_DAYS : Nat := 90

/-- `DAY_MS` constant of metrics.js (milliseconds per day). -/
def DAY_MS : Int := 86400000

/-- Calendar day as days since the Unix epoch (stands for a "YYYY-MM-DD"
UTC date string of the source). -/
abbrev Day := Int

/-- UTC calendar day of an epoch-milliseconds timestamp
(`new Date(ms).toISOString().slice(0, 10)`). -/
def dayOfMs (ms : Int) : Day := ms.fdiv DAY_MS

/-- JS `a || b` for an optional string-valued field: `undefined` and `""`
are falsy. -/
def strOr (a : Option String) (b : String) : String :=
  match a with
  | some s => if s = "" then b else s
  | none => b

/-- JS `a || b` for an optional number-valued field: `undefined` and `0`
are falsy. -/
def numOr (a b : Option Nat) : Option Nat :=
  match a with
  | some n => if n = 0 then b else a
  | none => b

/-- JS `parseInt(s, 10)`: an optional sign followed by leading decimal
digits; `none` models `NaN`. -/
def jsParseInt (s : String) : Option Int :=
  let core : Int × String :=
    if s.startsWith "-" then (-1, s.drop 1)
    else if s.startsWith "+" then (1, s.drop 1)
    else (1, s)
  let digits := core.2.takeWhile Char.isDigit
  if digits = "" then none
  else some (core.1 * (digits.toNat?.getD 0))

/-! ## JS objects as association lists -/

/-- Property read on a JS object used as a map. -/
def objGet {κ ν : Type} [DecidableEq κ] : List (κ × ν) → κ → Option ν
  | [], _ => none
  | (k', v) :: rest, k => if k' = k then some v else objGet rest k

/-- Property write on a JS object used as a map: updates an existing key
in place, otherwise appends (JS objects keep key-insertion order). -/
def objSet {κ ν : Type} [DecidableEq κ] : List (κ × ν) → κ → ν → List (κ × ν)
  | [], k, v => [(k, v)]
  | (k', v') :: rest, k, v =>
      if k' = k then (k, v) :: rest else (k', v') :: objSet rest k v

/-- JS `delete obj[k]`. -/
def objDelete {κ ν : Type} [DecidableEq κ] (m : List (κ × ν)) (k : κ) :
    List (κ × ν) :=
  m.filter (fun p => p.1 ≠ k)

/-- `Object.keys`. -/
def objKeys {κ ν : Type} (m : List (κ × ν)) : List κ := m.map Prod.fst

/-- JS `Set.add`: duplicate-free list in insertion order. -/
def setAdd (s : List String) (w : String) : List String :=
  if w ∈ s then s else s ++ [w]

/-- JS `new Set(list)`. -/
def listToSet (l : List String) : List String := l.foldl setAdd []

/-! ## Data model -/

/-- A normalized transaction (the element shape produced by the
`txns.map` step of `processLedger`). -/
structure Txn where
  type : String
  account : String
  destination : String
  fee : Option Int
  amount : Option Int
  hash : String
deriving DecidableEq, Repr

/-- The fields the normalizer reads from a transaction payload; `none`
models an absent field. -/
structure RawTxPayload where
  TransactionType : Option String := none
  Account : Option String := none
  Destination : Option String := none
  Fee : Option String := none
  Amount : Option Int := none
  hash : Option String := none
deriving DecidableEq, Repr

/-- A raw transaction as delivered to `processLedger`: either a bare hash
string, or an object whose payload may sit directly on the object or be
nested under `tx` or `tx_json`.  The `self` component carries the outer
object's own fields (including its `hash`). -/
inductive RawTx where
  | str (hash : String)
  | obj (tx : Option RawTxPayload) (tx_json : Option RawTxPayload)
        (self : RawTxPayload)
deriving DecidableEq, Repr

/-- The `txns.map(tx => ...)` normalization step of `processLedger`:
a bare string becomes a hash-only record (`{ hash: tx }`); otherwise
`inner = tx.tx || tx.tx_json || tx` is unwrapped and the canonical fields
are extracted with defaults. -/
def normalizeTx : RawTx → Txn
  | .str h =>
      { type := "", account := "", destination := "", fee := none,
        amount := none, hash := h }
  | .obj tx tx_json self =>
      let inner := tx.getD (tx_json.getD self)
      { type := strOr inner.TransactionType "Unknown",
        account := strOr inner.Account "",
        destination := strOr inner.Destination "",
        fee := jsParseInt (strOr inner.Fee "0"),
        amount := inner.Amount,
        hash := strOr inner.hash (strOr self.hash "") }

/-- A stored ledger (`{ seq, close_time, txn_count, transactions }`). -/
structure Ledger where
  seq : Nat
  close_time : Int
  txn_count : Nat
  transactions : List Txn
deriving DecidableEq, Repr

/-- A raw ledger object as delivered to `processLedger`.  Sequence
identifiers arrive as numbers (`parseInt` on them is the identity);
`close_time` is in Ripple-epoch seconds. -/
structure RawLedger where
  ledger_index : Option Nat := none
  seqNum : Option Nat := none
  close_time : Option Int := none
  transactions : Option (List RawTx) := none
deriving DecidableEq, Repr

/-- One per-day rollup record
(`{ txCount, activeWallets, walletAddresses }`); remote records may lack
`walletAddresses`.  Extra remote fields (tps, avgFee, nodeCount,
validatorCount) are never read by the engine and are not modelled. -/
structure DayRollup where
  txCount : Nat
  activeWallets : Nat
  walletAddresses : Option (List String) := none
deriving DecidableEq, Repr

/-- The `dailyStats` table: calendar day to rollup, in key-insertion
order. -/
abbrev DayMap := List (Day × DayRollup)

/-- One entry of `recentTxnTimes`
(`{ interval, txnCount }`, interval in seconds). -/
structure Sample where
  interval : Rat
  txnCount : Nat
deriving DecidableEq, Repr

/-- The engine's in-memory state (the mutable locals of the IIFE that the
modelled operations touch). -/
structure EngineState where
  ledgers : List Ledger
  recentTxnTimes : List Sample
  lastLedgerTime : Option Int
  dailyStats : DayMap
  firstSeen : List (String × Day)
deriving DecidableEq, Repr

/-- Fresh engine state (`init()` with empty persistence). -/
def initState : EngineState :=
  { ledgers := [], recentTxnTimes := [], lastLedgerTime := none,
    dailyStats := [], firstSeen := [] }

/-! ## Rollup reconciliation -/

/-- One step of the rollup merge used by both `saveDailyStats` and
`loadRemoteStats`:
`if (!existing || data.txCount > existing.txCount) dailyStats[date] = data`. -/
def mergeDay (m : DayMap) (d : Day) (data : DayRollup) : DayMap :=
  match objGet m d with
  | none => objSet m d data
  | some existing =>
      if existing.txCount < data.txCount then objSet m d data else m

/-- `computeLiveDailyRollups()`: group the stored ledgers by UTC day,
summing transaction counts and collecting the set of distinct
transaction-initiating accounts. -/
def computeLiveDailyRollups (ledgers : List Ledger) : DayMap :=
  let buckets : List (Day × (Nat × List String)) :=
    ledgers.foldl
      (fun m l =>
        let d := dayOfMs l.close_time
        let cur := (objGet m d).getD (0, [])
        let wallets := l.transactions.foldl
          (fun ws tx => if tx.account ≠ "" then setAdd ws tx.account else ws)
          cur.2
        objSet m d (cur.1 + l.txn_count, wallets))
      []
  buckets.map (fun p =>
    (p.1, { txCount := p.2.1, activeWallets := p.2.2.length,
            walletAddresses := some p.2.2 }))

/-- The merge loop of `saveDailyStats`: fold `mergeDay` over a list of
per-day entries. -/
def mergeAll (m : DayMap) (entries : DayMap) : DayMap :=
  entries.foldl (fun m p => mergeDay m p.1 p.2) m

/-- Sorted-insert step of the key sort. -/
def insertKey (k : Day) : List Day → List Day
  | [] => [k]
  | k' :: rest => if k ≤ k' then k :: k' :: rest else k' :: insertKey k rest

/-- `Object.keys(dailyStats).sort()`: ascending stable sort of the day
keys (lexicographic on the date strings, i.e. numeric on day numbers). -/
def sortKeys : List Day → List Day
  | [] => []
  | k :: rest => insertKey k (sortKeys rest)

/-- The trim step of `saveDailyStats`: keep only the `MAX_DAILY_DAYS` most
recent days, deleting the oldest keys. -/
def trimDaily (m : DayMap) : DayMap :=
  let sortedDates := sortKeys (objKeys m)
  if MAX_DAILY_DAYS < sortedDates.length then
    (sortedDates.take (sortedDates.length - MAX_DAILY_DAYS)).foldl objDelete m
  else m

/-- `saveDailyStats()`: merge the live per-day rollups into `dailyStats`
(higher `txCount` wins per day), then trim to the most recent
`MAX_DAILY_DAYS` days.  (The `localStorage.setItem` write has no effect on
engine state.) -/
def saveDailyStats (st : EngineState) : EngineState :=
  let liveDays := computeLiveDailyRollups st.ledgers
  let merged := mergeAll st.dailyStats liveDays
  { st with dailyStats := trimDaily merged }

/-! ## Session store ingestion -/

/-- Sorted-insert step of the ledger sort. -/
def insertLedger (a : Ledger) : List Ledger → List Ledger
  | [] => [a]
  | b :: rest =>
      if a.seq ≤ b.seq then a :: b :: rest else b :: insertLedger a rest

/-- `ledgers.sort((a, b) => a.seq - b.seq)`: ascending stable sort by
sequence. -/
def sortBySeq : List Ledger → List Ledger
  | [] => []
  | a :: rest => insertLedger a (sortBySeq rest)

/-- The eviction step of `processLedger`
(`ledgers = ledgers.slice(-MAX_LEDGERS)` when over the bound). -/
def trimLedgers (l : List Ledger) : List Ledger :=
  if MAX_LEDGERS < l.length then l.drop (l.length - MAX_LEDGERS) else l

/-- The `firstSeen` update loop of `processLedger`: record `ledgerDay` for
every transaction account not yet present (`if (tx.account &&
!firstSeen[tx.account])`). -/
def updateFirstSeen (fs : List (String × Day)) (ledgerDay : Day)
    (processed : List Txn) : List (String × Day) :=
  processed.foldl
    (fun m tx =>
      if tx.account ≠ "" ∧ objGet m tx.account = none then
        objSet m tx.account ledgerDay
      else m)
    fs

/-- The effective sequence of a raw ledger: `none` when the JS presence
test `if (!seq) return` rejects it (absent or `0`). -/
def validSeq (L : RawLedger) : Option Nat :=
  match numOr L.ledger_index L.seqNum with
  | none => none
  | some s => if s = 0 then none else some s

/-- The close-time conversion of `processLedger`: Ripple-epoch seconds to
JS-epoch milliseconds, falling back to the wall clock when `close_time` is
falsy. -/
def closeTimeOf (now : Int) (ledger : RawLedger) : Int :=
  match ledger.close_time with
  | some ct => if ct = 0 then now else (ct + 946684800) * 1000
  | none => now

/-- The transaction normalization step of `processLedger`. -/
def processedTxns (ledger : RawLedger) : List Txn :=
  (ledger.transactions.getD []).map normalizeTx

/-- The stored record `processLedger` pushes for an accepted ledger. -/
def newLedgerOf (now : Int) (ledger : RawLedger) (seq : Nat) : Ledger :=
  { seq := seq, close_time := closeTimeOf now ledger,
    txn_count := (processedTxns ledger).length,
    transactions := processedTxns ledger }

/-- The interval-sample update of `processLedger` (delta to the previous
accepted ledger's close time, capped to the last 10 samples). -/
def updatedRecent (now : Int) (st : EngineState) (ledger : RawLedger) :
    List Sample :=
  match st.lastLedgerTime with
  | some last =>
      let appended := st.recentTxnTimes ++
        [⟨(((closeTimeOf now ledger - last : Int) : Rat) / 1000),
          (processedTxns ledger).length⟩]
      if 10 < appended.length then appended.drop 1 else appended
  | none => st.recentTxnTimes

/-- The accepted path of `processLedger` (sequence present, nonzero, and
not already stored). -/
def processLedgerAccepted (now : Int) (st : EngineState)
    (ledger : RawLedger) (seq : Nat) : EngineState :=
  let trimmed :=
    trimLedgers (sortBySeq (st.ledgers ++ [newLedgerOf now ledger seq]))
  let st' : EngineState :=
    { ledgers := trimmed,
      recentTxnTimes := updatedRecent now st ledger,
      lastLedgerTime := some (closeTimeOf now ledger),
      dailyStats := st.dailyStats,
      firstSeen := updateFirstSeen st.firstSeen
        (dayOfMs (closeTimeOf now ledger)) (processedTxns ledger) }
  if trimmed.length % 10 = 0 then saveDailyStats st' else st'

/-- `processLedger(ledger)`.  `now` is the wall clock (`Date.now()`), used
as the close-time fallback.  Rejects when the effective sequence is
falsy (absent or `0`); rejects duplicates; otherwise normalizes the
transactions, updates the interval samples, appends the ledger, records
first-seen days for the new wallets, re-sorts by sequence, trims to
`MAX_LEDGERS`, and runs `saveCache` (hence `saveDailyStats`) every time
the stored count is a multiple of 10. -/
def processLedger (now : Int) (st : EngineState) (ledger : RawLedger) :
    EngineState :=
  match numOr ledger.ledger_index ledger.seqNum with
  | none => st
  | some seq =>
    if seq = 0 then st
    else if st.ledgers.any (fun l => l.seq == seq) then st
    else processLedgerAccepted now st ledger seq

/-- A sequence of `processLedger` calls, each with its own wall-clock
reading. -/
def ingestAll (st : EngineState) (evs : List (Int × RawLedger)) :
    EngineState :=
  evs.foldl (fun s e => processLedger e.1 s e.2) st

/-! ## Remote snapshot reconciliation -/

/-- The remote `daily-stats.json` document (fields the engine reads). -/
structure RemoteSnapshot where
  firstSeen : List (String × Day)
  days : DayMap
deriving DecidableEq, Repr

/-- The remote `firstSeen` merge loop of `loadRemoteStats` (local
entries take precedence). -/
def mergeFirstSeen (fs : List (String × Day))
    (entries : List (String × Day)) : List (String × Day) :=
  entries.foldl
    (fun m p => if objGet m p.1 = none then objSet m p.1 p.2 else m)
    fs

/-- The remote `days` merge loop of `loadRemoteStats`: skip today when a
local entry exists; otherwise higher `txCount` wins. -/
def mergeRemoteDays (today : Day) (m : DayMap) (entries : DayMap) : DayMap :=
  entries.foldl
    (fun m p =>
      if p.1 = today ∧ (objGet m p.1).isSome then m
      else mergeDay m p.1 p.2)
    m

/-- `loadRemoteStats()` after a successful fetch of `remote`.  `today` is
the current UTC day.  Merges the remote first-seen entries (local
precedence), overlays the remote day records (skipping today when a local
entry exists, otherwise higher `txCount` wins), then persists via
`saveDailyStats()`. -/
def loadRemoteStats (today : Day) (st : EngineState)
    (remote : RemoteSnapshot) : EngineState :=
  let fs := mergeFirstSeen st.firstSeen remote.firstSeen
  let ds := mergeRemoteDays today st.dailyStats remote.days
  saveDailyStats { st with firstSeen := fs, dailyStats := ds }

/-! ## Statistics -/

/-- `getAllTransactions(sinceMs)`: transactions of all stored ledgers
whose close time falls within the trailing window. -/
def getAllTransactions (now : Int) (st : EngineState) (sinceMs : Int) :
    List Txn :=
  (st.ledgers.filter (fun l => now - sinceMs ≤ l.close_time)).flatMap
    Ledger.transactions

/-- The per-day live wallet-set grouping shared (verbatim) by
`getDailyActiveWalletsMulti`, `getCohortRetention` and friends: group the
stored ledgers by UTC day, collecting the set of accounts per day. -/
def dayWalletBuckets (ledgers : List Ledger) : List (Day × List String) :=
  ledgers.foldl
    (fun m l =>
      let d := dayOfMs l.close_time
      let cur := (objGet m d).getD []
      let cur' := l.transactions.foldl
        (fun ws tx => if tx.account ≠ "" then setAdd ws tx.account else ws)
        cur
      objSet m d cur')
    []

/-- The merged per-day transaction totals of `getTxVolumeHistory` (its
locals `merged` and `liveDayTotals`): persisted `txCount`s, overlaid
first with each ledger's own count and then with the live per-day totals,
maximum always winning. -/
def txVolumeMerged (st : EngineState) : List (Day × Nat) :=
  let merged0 : List (Day × Nat) :=
    st.dailyStats.foldl (fun m p => objSet m p.1 p.2.txCount) []
  let merged1 := st.ledgers.foldl
    (fun m l => objSet m (dayOfMs l.close_time)
      (max ((objGet m (dayOfMs l.close_time)).getD 0) l.txn_count))
    merged0
  let liveTotals : List (Day × Nat) := st.ledgers.foldl
    (fun m l => objSet m (dayOfMs l.close_time)
      ((objGet m (dayOfMs l.close_time)).getD 0 + l.txn_count))
    []
  liveTotals.foldl
    (fun m p => objSet m p.1 (max ((objGet m p.1).getD 0) p.2))
    merged1

/-- `getTxVolumeHistory()`: merge the persisted per-day `txCount`s with
the live per-day totals (maximum wins), then report exactly the 7 days
today-6 .. today in ascending order, with count 0 for days without
data. -/
def getTxVolumeHistory (now : Int) (st : EngineState) : List (Day × Nat) :=
  let today := dayOfMs now
  (List.range 7).map
    (fun i => (today - 6 + i,
      (objGet (txVolumeMerged st) (today - 6 + i)).getD 0))

/-- One output row of `getDailyActiveWalletsMulti`. -/
structure MultiEntry where
  date : Day
  day1 : Nat
  day7 : Nat
  day30 : Nat
deriving DecidableEq, Repr, Inhabited

/-- The per-day counts `dayCounts` of `getDailyActiveWalletsMulti`:
persisted `activeWallets` overlaid with live per-day unique counts
(maximum wins). -/
def multiDayCounts (st : EngineState) : List (Day × Nat) :=
  let dayCounts0 : List (Day × Nat) :=
    st.dailyStats.foldl (fun m p => objSet m p.1 p.2.activeWallets) []
  (dayWalletBuckets st.ledgers).foldl
    (fun m p => objSet m p.1 (max ((objGet m p.1).getD 0) p.2.length))
    dayCounts0

/-- The value slice `vals[j]` for the window `j = max(0, i-(w-1)) .. i`
of the rolling loops of `getDailyActiveWalletsMulti`. -/
def windowVals (vals : List Nat) (i w : Nat) : List Nat :=
  (List.range' (i + 1 - min (i + 1) w) (min (i + 1) w)).map
    (fun j => vals.getD j 0)

/-- The full (pre-`slice(-30)`) result list of
`getDailyActiveWalletsMulti`, with the two rolling loops per index. -/
def multiEntries (st : EngineState) : List MultiEntry :=
  let dayCounts := multiDayCounts st
  let sortedDays := sortKeys (objKeys dayCounts)
  let vals := sortedDays.map (fun d => (objGet dayCounts d).getD 0)
  (List.range sortedDays.length).map
    (fun i =>
      let day1 := vals.getD i 0
      -- first 7-day loop (its value is overwritten below, as in the source)
      let _day7pre := (windowVals vals i 7).foldl max 0
      let day7sum := (windowVals vals i 7).foldl (· + ·) 0
      let day7 := max day1 (min day7sum day7sum)
      let day30sum := (windowVals vals i 30).foldl (· + ·) 0
      let day30 := max day7 day30sum
      { date := sortedDays.getD i 0, day1 := day1,
        day7 := day7, day30 := day30 })

/-- `getDailyActiveWalletsMulti()`: the rolling multi-window series,
restricted to the most recent 30 present days (`slice(-30)`). -/
def getDailyActiveWalletsMulti (st : EngineState) : List MultiEntry :=
  let result := multiEntries st
  result.drop (result.length - 30)

/-! ## Cohort retention -/

/-- The `dayWalletSets` construction of `getCohortRetention`: per-day
wallet identity sets from `dailyStats` entries that carry a non-empty
`walletAddresses` list, unioned with the live session per-day sets. -/
def buildDayWalletSets (st : EngineState) : List (Day × List String) :=
  let fromStats : List (Day × List String) :=
    st.dailyStats.foldl
      (fun m p =>
        match p.2.walletAddresses with
        | some ws => if 0 < ws.length then objSet m p.1 (listToSet ws) else m
        | none => m)
      []
  (dayWalletBuckets st.ledgers).foldl
    (fun m p =>
      match objGet m p.1 with
      | some s => objSet m p.1 (p.2.foldl setAdd s)
      | none => objSet m p.1 (listToSet p.2))
    fromStats

/-- The cohort grouping of `getCohortRetention`: wallets grouped by their
first-seen day. -/
def buildCohorts (fs : List (String × Day)) : List (Day × List String) :=
  fs.foldl
    (fun m p => objSet m p.2 (setAdd ((objGet m p.2).getD []) p.1))
    []

/-- Whether wallet `w` returns within horizon `H` after cohort day `c`:
it appears in the membership set of some day in `(c, c+H]`. -/
def walletReturned (sets : List (Day × List String)) (c : Day) (H : Nat)
    (w : String) : Bool :=
  (List.range' 1 H).any
    (fun i =>
      match objGet sets (c + (i : Int)) with
      | some s => s.contains w
      | none => false)

/-- Retention percentage of one cohort for horizon `H`. -/
def retentionValue (sets : List (Day × List String)) (c : Day) (H : Nat)
    (ws : List String) : Rat :=
  ((ws.filter (fun w => walletReturned sets c H w)).length : Rat)
    / (ws.length : Rat) * 100

/-- The three lists of matured cohorts' retention percentages. -/
structure RetentionLists where
  matured3 : List Rat
  matured7 : List Rat
  matured30 : List Rat
deriving DecidableEq, Repr

/-- The body of the cohort loop of `getCohortRetention`: skip empty
cohorts, skip cohorts younger than 3 days (`continue`), and push the
3/7/30-day retention values of the cohorts matured for each horizon. -/
def cohortStep (sets : List (Day × List String)) (today : Day)
    (acc : RetentionLists) (p : Day × List String) : RetentionLists :=
  let todayMs := today * DAY_MS
  let cohortMs := p.1 * DAY_MS
  if p.2.length = 0 then acc
  else if todayMs - cohortMs < 3 * DAY_MS then acc
  else
    let acc3 :=
      { acc with matured3 := acc.matured3 ++ [retentionValue sets p.1 3 p.2] }
    let acc7 :=
      if 7 * DAY_MS ≤ todayMs - cohortMs then
        { acc3 with matured7 := acc3.matured7 ++ [retentionValue sets p.1 7 p.2] }
      else acc3
    if 30 * DAY_MS ≤ todayMs - cohortMs then
      { acc7 with matured30 := acc7.matured30 ++ [retentionValue sets p.1 30 p.2] }
    else acc7

/-- The cohort loop of `getCohortRetention`. -/
def cohortRetentionLists (st : EngineState) (today : Day) : RetentionLists :=
  let sets := buildDayWalletSets st
  let cohorts := buildCohorts st.firstSeen
  cohorts.foldl (cohortStep sets today) ⟨[], [], []⟩

/-- JS `list.length > 0 ? sum / length : null`. -/
def ratMean (l : List Rat) : Option Rat :=
  if l.length = 0 then none else some ((l.foldl (· + ·) 0) / (l.length : Rat))

/-- The averaged output of `getCohortRetention` (`none` models the `'--'`
sentinel; the `toFixed(1)` display formatting is not modelled). -/
structure RetentionOut where
  day3 : Option Rat
  day7 : Option Rat
  day30 : Option Rat
deriving DecidableEq, Repr

/-- `getCohortRetention()` for a given current day. -/
def getCohortRetention (st : EngineState) (today : Day) : RetentionOut :=
  let ls := cohortRetentionLists st today
  ⟨ratMean ls.matured3, ratMean ls.matured7, ratMean ls.matured30⟩

/-! ## Spec-modelled definition (for the C4 refinement comparison) -/

/-- Modelled from the spec (§4.4), for the refinement comparison only:
"Where exact wallet identity sets are available for every day in the
window, the rolling figure is the exact size of the union of those
sets."  This computes that exact union size for a window's per-day
wallet-identity sets. -/
def specWindowUnionSize (sets : List (List String)) : Nat :=
  (sets.foldl (fun acc s => s.foldl setAdd acc) []).length

/-! ## Concrete scenario states -/

/-- The local table of the C1 counterexample: day 0 with
`txCount = 10`, `activeWallets = 100`. -/
def c1State : EngineState :=
  { ledgers := [], recentTxnTimes := [], lastLedgerTime := none,
    dailyStats := [(0, ⟨10, 100, none⟩)], firstSeen := [] }

/-- The remote snapshot of the C1 counterexample: day 0 with
`txCount = 20` but `activeWallets = 5`. -/
def c1Remote : RemoteSnapshot :=
  { firstSeen := [], days := [(0, ⟨20, 5, none⟩)] }

/-- The local table of the C2 scenario: today (day 10) with
`txCount = 50` and yesterday (day 9) with `txCount = 40`. -/
def c2State : EngineState :=
  { ledgers := [], recentTxnTimes := [], lastLedgerTime := none,
    dailyStats := [(10, ⟨50, 3, none⟩), (9, ⟨40, 4, none⟩)],
    firstSeen := [] }

/-- The remote snapshot of the C2 scenario: today `txCount = 80`,
yesterday `txCount = 60`. -/
def c2Remote : RemoteSnapshot :=
  { firstSeen := [], days := [(10, ⟨80, 9, none⟩), (9, ⟨60, 7, none⟩)] }

/-- The `i`-th stored ledger of the full-store C3 scenario. -/
def c3mk (i : Nat) : Ledger :=
  { seq := i, close_time := 0, txn_count := 0, transactions := [] }

/-- A full session store: `MAX_LEDGERS` ledgers with sequences
`2 .. MAX_LEDGERS + 1`, already sorted ascending. -/
def c3Big : List Ledger := (List.range' 2 MAX_LEDGERS).map c3mk

/-- The C3 engine state: a full store and no interval samples yet. -/
def c3State : EngineState :=
  { ledgers := c3Big, recentTxnTimes := [], lastLedgerTime := none,
    dailyStats := [], firstSeen := [] }

/-- The incoming C3 ledger: sequence 1, below every stored sequence. -/
def c3Raw : RawLedger :=
  { ledger_index := some 1, seqNum := none, close_time := some 1,
    transactions := none }

/-- The local table of the C4 counterexample: the same single wallet `w`
active on two consecutive days, with full wallet-identity sets stored. -/
def c4State : EngineState :=
  { ledgers := [], recentTxnTimes := [], lastLedgerTime := none,
    dailyStats := [(0, ⟨1, 1, some ["w"]⟩), (1, ⟨1, 1, some ["w"]⟩)],
    firstSeen := [] }

/-- The transaction of the C6 scenario: initiated by wallet `w`. -/
def c6Tx : RawTx := .obj none none { Account := some "w" }

/-- The ledger of the C6 scenario: sequence 1, closing on UTC day 10957
(Ripple-epoch close time 1). -/
def c6Ledger : RawLedger :=
  { ledger_index := some 1, close_time := some 1,
    transactions := some [c6Tx] }

/-- The remote snapshot of the C6 scenario: it observed wallet `w`
already on day 10000, i.e. earlier than the live session did. -/
def c6Remote : RemoteSnapshot :=
  { firstSeen := [("w", 10000)], days := [] }

/-- A raw ledger with sequence `s`, close time `t` (Ripple seconds) and
transaction list `txs`, as delivered by the feed. -/
def c8Raw (s : Nat) (t : Int) (txs : List RawTx) : RawLedger :=
  { ledger_index := some s, seqNum := none, close_time := some t,
    transactions := some txs }

/-- A ledger carrying the sequence number 0 (in both fields). -/
def c10Ledger : RawLedger :=
  { ledger_index := some 0, seqNum := some 0, close_time := some 5,
    transactions := some [] }

/-! ## The session-store invariant -/

/-- The set of sequence identifiers accepted by the presence test so far
(duplicates collapse; invalid events contribute nothing). -/
def eventInsert (seen : Finset Nat) (L : RawLedger) : Finset Nat :=
  match validSeq L with
  | none => seen
  | some q => insert q seen

/-- All valid sequence identifiers occurring in an event list. -/
def seenSeqs (evs : List (Int × RawLedger)) : Finset Nat :=
  evs.foldl (fun s e => eventInsert s e.2) ∅

/-- The session-store invariant: the stored ledgers are strictly sorted
by sequence, there are `min MAX_LEDGERS seen.card` of them, and a
sequence is stored exactly when it has been seen and fewer than
`MAX_LEDGERS` seen sequences exceed it — i.e. the store holds the
`MAX_LEDGERS` highest-sequence ledgers seen so far. -/
def StoreInv (st : EngineState) (seen : Finset Nat) : Prop :=
  st.ledgers.Pairwise (fun a b => a.seq < b.seq) ∧
  st.ledgers.length = min MAX_LEDGERS seen.card ∧
  ∀ q : Nat, q ∈ st.ledgers.map Ledger.seq ↔
    q ∈ seen ∧ (seen.filter (fun r => q < r)).card < MAX_LEDGERS

/-! ## Lemmas: JS object maps -/

section ObjLemmas

variable {κ ν : Type} [DecidableEq κ]

theorem objGet_cons (k' : κ) (v : ν) (m : List (κ × ν)) (k : κ) :
    objGet ((k', v) :: m) k = if k' = k then some v else objGet m k := rfl

theorem objGet_objSet_self (m : List (κ × ν)) (k : κ) (v : ν) :
    objGet (objSet m k v) k = some v := by
  induction m with
  | nil => simp [objSet, objGet]
  | cons p rest ih =>
      obtain ⟨k', v'⟩ := p
      by_cases h : k' = k
      · simp [objSet, h, objGet]
      · simp [objSet, h, objGet, ih]

theorem objGet_objSet_ne (m : List (κ × ν)) {k k' : κ} (v : ν)
    (h : k' ≠ k) : objGet (objSet m k v) k' = objGet m k' := by
  have h' : k ≠ k' := fun hh => h hh.symm
  induction m with
  | nil => simp [objSet, objGet, h']
  | cons p rest ih =>
      obtain ⟨k₀, v₀⟩ := p
      by_cases h0 : k₀ = k
      · subst h0
        simp [objSet, objGet, h']
      · simp [objSet, h0, objGet, ih]

theorem objSet_of_get_none {m : List (κ × ν)} {k : κ}
    (h : objGet m k = none) (v : ν) : objSet m k v = m ++ [(k, v)] := by
  induction m with
  | nil => simp [objSet]
  | cons p rest ih =>
      obtain ⟨k₀, v₀⟩ := p
      by_cases h0 : k₀ = k
      · simp [objGet, h0] at h
      · simp [objGet, h0] at h
        simp [objSet, h0, ih h]

theorem objGet_isSome_iff_mem {m : List (κ × ν)} {k : κ} :
    (objGet m k).isSome ↔ k ∈ objKeys m := by
  induction m with
  | nil => simp [objGet, objKeys]
  | cons p rest ih =>
      obtain ⟨k₀, v₀⟩ := p
      by_cases h0 : k₀ = k
      · simp [objGet, h0, objKeys]
      · have h0' : k ≠ k₀ := fun hh => h0 hh.symm
        simp [objGet, h0, objKeys, ih, h0']

theorem objGet_eq_none_iff {m : List (κ × ν)} {k : κ} :
    objGet m k = none ↔ k ∉ objKeys m := by
  rw [← objGet_isSome_iff_mem, Option.isSome_iff_ne_none]
  tauto

theorem objGet_mem_of_some {m : List (κ × ν)} {k : κ} {v : ν}
    (h : objGet m k = some v) : (k, v) ∈ m := by
  induction m with
  | nil => simp [objGet] at h
  | cons p rest ih =>
      obtain ⟨k₀, v₀⟩ := p
      by_cases h0 : k₀ = k
      · subst h0
        simp [objGet] at h
        simp [h]
      · simp [objGet, h0] at h
        exact List.mem_cons_of_mem _ (ih h)

theorem objGet_append_of_some {m m' : List (κ × ν)} {k : κ} {v : ν}
    (h : objGet m k = some v) : objGet (m ++ m') k = some v := by
  induction m with
  | nil => simp [objGet] at h
  | cons p rest ih =>
      obtain ⟨k₀, v₀⟩ := p
      by_cases h0 : k₀ = k
      · simp [objGet, h0] at h ⊢
        exact h
      · simp [objGet, h0] at h ⊢
        exact ih h

theorem objGet_append_of_none {m m' : List (κ × ν)} {k : κ}
    (h : objGet m k = none) : objGet (m ++ m') k = objGet m' k := by
  induction m with
  | nil => simp
  | cons p rest ih =>
      obtain ⟨k₀, v₀⟩ := p
      by_cases h0 : k₀ = k
      · simp [objGet, h0] at h
      · simp [objGet, h0] at h ⊢
        exact ih h

theorem objSet_append_right {A : List (κ × ν)} {k : κ}
    (h : objGet A k = none) (B : List (κ × ν)) (v : ν) :
    objSet (A ++ B) k v = A ++ objSet B k v := by
  induction A with
  | nil => simp
  | cons p rest ih =>
      obtain ⟨k₀, v₀⟩ := p
      by_cases h0 : k₀ = k
      · simp [objGet, h0] at h
      · simp [objGet, h0] at h
        simp [objSet, h0, ih h]

omit [DecidableEq κ] in
theorem objKeys_append (m m' : List (κ × ν)) :
    objKeys (m ++ m') = objKeys m ++ objKeys m' := by
  simp [objKeys]

theorem objKeys_objSet_of_get_some {m : List (κ × ν)} {k : κ}
    (h : (objGet m k).isSome) (v : ν) :
    objKeys (objSet m k v) = objKeys m := by
  induction m with
  | nil => simp [objGet] at h
  | cons p rest ih =>
      obtain ⟨k₀, v₀⟩ := p
      by_cases h0 : k₀ = k
      · simp [objSet, h0, objKeys]
      · simp [objGet, h0] at h
        simp [objSet, h0, objKeys] at ih ⊢
        exact ih h

theorem objKeys_objSet_of_get_none {m : List (κ × ν)} {k : κ}
    (h : objGet m k = none) (v : ν) :
    objKeys (objSet m k v) = objKeys m ++ [k] := by
  rw [objSet_of_get_none h, objKeys_append]
  rfl

theorem nodup_objKeys_objSet {m : List (κ × ν)} {k : κ} (v : ν)
    (h : (objKeys m).Nodup) : (objKeys (objSet m k v)).Nodup := by
  rcases hg : objGet m k with _ | w
  · rw [objKeys_objSet_of_get_none hg]
    have hk : k ∉ objKeys m := objGet_eq_none_iff.mp hg
    simp [List.nodup_append, h, hk]
  · rw [objKeys_objSet_of_get_some (by simp [hg]) v]
    exact h

theorem mem_objKeys_objSet_self (m : List (κ × ν)) (k : κ) (v : ν) :
    k ∈ objKeys (objSet m k v) :=
  objGet_isSome_iff_mem.mp (by simp [objGet_objSet_self])

theorem foldl_objDelete_eq_filter (ks : List κ) (m : List (κ × ν)) :
    ks.foldl objDelete m = m.filter (fun p => p.1 ∉ ks) := by
  induction ks generalizing m with
  | nil => simp
  | cons a ks ih =>
      have step : List.foldl objDelete m (a :: ks)
          = List.foldl objDelete (objDelete m a) ks := rfl
      rw [step, ih, objDelete, List.filter_filter]
      apply List.filter_congr
      intro p _
      by_cases h1 : p.1 = a <;> by_cases h2 : p.1 ∈ ks <;> simp [h1, h2]

theorem objGet_filter_keys (ks : List κ) (m : List (κ × ν)) (k : κ) :
    objGet (m.filter (fun p => p.1 ∉ ks)) k
      = if k ∈ ks then none else objGet m k := by
  induction m with
  | nil =>
      by_cases hk : k ∈ ks <;> simp [objGet, hk]
  | cons p rest ih =>
      obtain ⟨k₀, v₀⟩ := p
      by_cases hk : k₀ ∈ ks
      · have hstep : ((k₀, v₀) :: rest).filter (fun p => p.1 ∉ ks)
            = rest.filter (fun p => p.1 ∉ ks) := by
          simp [List.filter_cons, hk]
        rw [hstep, ih]
        by_cases h0 : k₀ = k
        · subst h0
          simp [hk, objGet]
        · rw [objGet_cons, if_neg h0]
      · have hstep : ((k₀, v₀) :: rest).filter (fun p => p.1 ∉ ks)
            = (k₀, v₀) :: rest.filter (fun p => p.1 ∉ ks) := by
          simp [List.filter_cons, hk]
        rw [hstep]
        by_cases h0 : k₀ = k
        · subst h0
          simp [hk, objGet]
        · rw [objGet_cons, if_neg h0, ih, objGet_cons, if_neg h0]

theorem objGet_foldl_objDelete (ks : List κ) (m : List (κ × ν)) (k : κ) :
    objGet (ks.foldl objDelete m) k = if k ∈ ks then none else objGet m k := by
  rw [foldl_objDelete_eq_filter, objGet_filter_keys]

omit [DecidableEq κ] in
theorem objKeys_filter (q : κ → Bool) (m : List (κ × ν)) :
    objKeys (m.filter (fun p => q p.1)) = (objKeys m).filter q := by
  induction m with
  | nil => rfl
  | cons p rest ih =>
      by_cases h : q p.1
      · simp [objKeys, List.filter_cons, h] at ih ⊢
        exact ih
      · simp only [Bool.not_eq_true] at h
        simp [objKeys, List.filter_cons, h] at ih ⊢
        exact ih

end ObjLemmas

/-! ## Lemmas: merge steps -/

theorem objGet_mergeDay_ne {m : DayMap} {d k : Day} (data : DayRollup)
    (h : k ≠ d) : objGet (mergeDay m d data) k = objGet m k := by
  unfold mergeDay
  rcases objGet m d with _ | e
  · exact objGet_objSet_ne m data h
  · by_cases hc : e.txCount < data.txCount
    · simp [hc, objGet_objSet_ne m data h]
    · simp [hc]

theorem mergeDay_self_bound (m : DayMap) (d : Day) (data : DayRollup) :
    ∃ w, objGet (mergeDay m d data) d = some w ∧ data.txCount ≤ w.txCount ∧
      (∀ v, objGet m d = some v → v.txCount ≤ w.txCount) := by
  unfold mergeDay
  rcases hg : objGet m d with _ | e
  · exact ⟨data, by simp [objGet_objSet_self], le_refl _, by simp⟩
  · by_cases hc : e.txCount < data.txCount
    · refine ⟨data, by simp [hc, objGet_objSet_self], le_refl _, ?_⟩
      intro v hv
      cases hv
      exact le_of_lt hc
    · refine ⟨e, by simp [hc, hg], le_of_not_lt hc, ?_⟩
      intro v hv
      cases hv
      exact le_refl _

theorem mergeDay_mono {m : DayMap} {k : Day} {v : DayRollup}
    (d : Day) (data : DayRollup) (h : objGet m k = some v) :
    ∃ w, objGet (mergeDay m d data) k = some w ∧ v.txCount ≤ w.txCount := by
  by_cases hk : k = d
  · subst hk
    obtain ⟨w, hw, _, hold⟩ := mergeDay_self_bound m k data
    exact ⟨w, hw, hold v h⟩
  · exact ⟨v, by rw [objGet_mergeDay_ne data hk, h], le_refl _⟩

theorem nodup_objKeys_mergeDay {m : DayMap} (d : Day) (data : DayRollup)
    (h : (objKeys m).Nodup) : (objKeys (mergeDay m d data)).Nodup := by
  unfold mergeDay
  rcases objGet m d with _ | e
  · exact nodup_objKeys_objSet data h
  · by_cases hc : e.txCount < data.txCount
    · simp only [hc, if_true]
      exact nodup_objKeys_objSet data h
    · simp [hc, h]

theorem mem_objKeys_mergeDay {m : DayMap} {k : Day}
    (d : Day) (data : DayRollup) (h : k ∈ objKeys m) :
    k ∈ objKeys (mergeDay m d data) := by
  obtain ⟨v, hv⟩ := Option.isSome_iff_exists.mp (objGet_isSome_iff_mem.mpr h)
  obtain ⟨w, hw, _⟩ := mergeDay_mono d data hv
  exact objGet_isSome_iff_mem.mp (by simp [hw])

theorem mergeAll_mono {m : DayMap} {k : Day} {v : DayRollup}
    (e : DayMap) (h : objGet m k = some v) :
    ∃ w, objGet (mergeAll m e) k = some w ∧ v.txCount ≤ w.txCount := by
  induction e generalizing m v with
  | nil => exact ⟨v, h, le_refl _⟩
  | cons p rest ih =>
      obtain ⟨w, hw, hle⟩ := mergeDay_mono p.1 p.2 h
      obtain ⟨w', hw', hle'⟩ := ih hw
      exact ⟨w', hw', le_trans hle hle'⟩

theorem mergeAll_entry_bound {e : DayMap} {d : Day} {data : DayRollup}
    (m : DayMap) (h : (d, data) ∈ e) :
    ∃ w, objGet (mergeAll m e) d = some w ∧ data.txCount ≤ w.txCount := by
  revert h
  induction e generalizing m with
  | nil =>
      intro h
      cases h
  | cons p rest ih =>
      intro h
      rcases List.mem_cons.mp h with h1 | h1
      · subst h1
        obtain ⟨w, hw, hle, _⟩ := mergeDay_self_bound m d data
        obtain ⟨w', hw', hle'⟩ := mergeAll_mono rest hw
        exact ⟨w', hw', le_trans hle hle'⟩
      · exact ih (mergeDay m p.1 p.2) h1

theorem nodup_objKeys_mergeAll {m : DayMap} (e : DayMap)
    (h : (objKeys m).Nodup) : (objKeys (mergeAll m e)).Nodup := by
  induction e generalizing m with
  | nil => exact h
  | cons p rest ih => exact ih (nodup_objKeys_mergeDay p.1 p.2 h)

theorem mem_objKeys_mergeAll {m : DayMap} {k : Day} (e : DayMap)
    (h : k ∈ objKeys m) : k ∈ objKeys (mergeAll m e) := by
  induction e generalizing m with
  | nil => exact h
  | cons p rest ih => exact ih (mem_objKeys_mergeDay p.1 p.2 h)

theorem mem_objKeys_mergeAll_of_entry {e : DayMap} {d : Day}
    {data : DayRollup} (m : DayMap) (h : (d, data) ∈ e) :
    d ∈ objKeys (mergeAll m e) := by
  obtain ⟨w, hw, _⟩ := mergeAll_entry_bound m h
  exact objGet_isSome_iff_mem.mp (by simp [hw])

theorem exists_entry_of_mem_objKeys {κ ν : Type} [DecidableEq κ]
    {m : List (κ × ν)} {k : κ} (h : k ∈ objKeys m) : ∃ v, (k, v) ∈ m := by
  obtain ⟨v, hv⟩ := Option.isSome_iff_exists.mp (objGet_isSome_iff_mem.mpr h)
  exact ⟨v, objGet_mem_of_some hv⟩

theorem nodup_objKeys_append_singleton {κ ν : Type} [DecidableEq κ]
    {B : List (κ × ν)} {k : κ} (v : ν) (hnd : (objKeys B).Nodup)
    (hk : k ∉ objKeys B) : (objKeys (B ++ [(k, v)])).Nodup := by
  rw [objKeys_append, List.nodup_append]
  refine ⟨hnd, by simp [objKeys], ?_⟩
  intro x hx hmem
  have hxk : x = k := by simpa [objKeys] using hmem
  subst hxk
  exact hk hx

theorem mergeAll_cons (m : DayMap) (p : Day × DayRollup) (rest : DayMap) :
    mergeAll m (p :: rest) = mergeAll (mergeDay m p.1 p.2) rest := rfl

theorem mergeRemoteDays_cons (today : Day) (m : DayMap)
    (p : Day × DayRollup) (rest : DayMap) :
    mergeRemoteDays today m (p :: rest) =
      mergeRemoteDays today
        (if p.1 = today ∧ (objGet m p.1).isSome then m else mergeDay m p.1 p.2)
        rest := rfl

theorem mergeRemoteDays_mono {m : DayMap} {k : Day} {v : DayRollup}
    (today : Day) (e : DayMap) (h : objGet m k = some v) :
    ∃ w, objGet (mergeRemoteDays today m e) k = some w ∧
      v.txCount ≤ w.txCount := by
  induction e generalizing m v with
  | nil => exact ⟨v, h, le_refl _⟩
  | cons p rest ih =>
      rw [mergeRemoteDays_cons]
      by_cases hskip : p.1 = today ∧ (objGet m p.1).isSome
      · rw [if_pos hskip]
        exact ih h
      · rw [if_neg hskip]
        obtain ⟨w, hw, hle⟩ := mergeDay_mono p.1 p.2 h
        obtain ⟨w', hw', hle'⟩ := ih hw
        exact ⟨w', hw', le_trans hle hle'⟩

theorem mergeRemoteDays_entry_bound {e : DayMap} {d : Day} {data : DayRollup}
    (today : Day) (m : DayMap) (h : (d, data) ∈ e) (hd : d ≠ today) :
    ∃ w, objGet (mergeRemoteDays today m e) d = some w ∧
      data.txCount ≤ w.txCount := by
  revert h
  induction e generalizing m with
  | nil =>
      intro h
      cases h
  | cons p rest ih =>
      intro h
      rw [mergeRemoteDays_cons]
      rcases List.mem_cons.mp h with h1 | h1
      · subst h1
        have hskip : ¬ ((d, data).1 = today ∧
            (objGet m (d, data).1).isSome) := by
          simp [hd]
        rw [if_neg hskip]
        obtain ⟨w, hw, hle, _⟩ := mergeDay_self_bound m d data
        obtain ⟨w', hw', hle'⟩ := mergeRemoteDays_mono today rest hw
        exact ⟨w', hw', le_trans hle hle'⟩
      · exact ih _ h1

theorem nodup_objKeys_mergeRemoteDays {m : DayMap} (today : Day) (e : DayMap)
    (h : (objKeys m).Nodup) :
    (objKeys (mergeRemoteDays today m e)).Nodup := by
  induction e generalizing m with
  | nil => exact h
  | cons p rest ih =>
      rw [mergeRemoteDays_cons]
      by_cases hskip : p.1 = today ∧ (objGet m p.1).isSome
      · rw [if_pos hskip]
        exact ih h
      · rw [if_neg hskip]
        exact ih (nodup_objKeys_mergeDay p.1 p.2 h)

theorem mem_objKeys_mergeRemoteDays {m : DayMap} {k : Day}
    (today : Day) (e : DayMap) (h : k ∈ objKeys m) :
    k ∈ objKeys (mergeRemoteDays today m e) := by
  obtain ⟨v, hv⟩ := Option.isSome_iff_exists.mp (objGet_isSome_iff_mem.mpr h)
  obtain ⟨w, hw, _⟩ := mergeRemoteDays_mono today e hv
  exact objGet_isSome_iff_mem.mp (by simp [hw])

theorem mem_objKeys_mergeRemoteDays_of_entry {e : DayMap} {d : Day}
    {data : DayRollup} (today : Day) (m : DayMap) (h : (d, data) ∈ e) :
    d ∈ objKeys (mergeRemoteDays today m e) := by
  revert h
  induction e generalizing m with
  | nil =>
      intro h
      cases h
  | cons p rest ih =>
      intro h
      rw [mergeRemoteDays_cons]
      rcases List.mem_cons.mp h with h1 | h1
      · subst h1
        by_cases hskip : (d, data).1 = today ∧
            (objGet m (d, data).1).isSome
        · rw [if_pos hskip]
          exact mem_objKeys_mergeRemoteDays today rest
            (objGet_isSome_iff_mem.mp hskip.2)
        · rw [if_neg hskip]
          obtain ⟨w, hw, _, _⟩ := mergeDay_self_bound m d data
          exact mem_objKeys_mergeRemoteDays today rest
            (objGet_isSome_iff_mem.mp (by simp [hw]))
      · exact ih _ h1

theorem mergeDay_of_get_none {m : DayMap} {d : Day} (data : DayRollup)
    (hg : objGet m d = none) : mergeDay m d data = objSet m d data := by
  unfold mergeDay
  rw [hg]

theorem mergeDay_of_get_some {m : DayMap} {d : Day} {e : DayRollup}
    (data : DayRollup) (hg : objGet m d = some e) :
    mergeDay m d data =
      if e.txCount < data.txCount then objSet m d data else m := by
  unfold mergeDay
  rw [hg]

theorem objKeys_len_mergeDay (m : DayMap) (d : Day) (data : DayRollup) :
    (objKeys (mergeDay m d data)).length ≤ (objKeys m).length + 1 := by
  rcases hg : objGet m d with _ | e
  · rw [mergeDay_of_get_none data hg, objKeys_objSet_of_get_none hg]
    simp
  · rw [mergeDay_of_get_some data hg]
    by_cases hc : e.txCount < data.txCount
    · rw [if_pos hc, objKeys_objSet_of_get_some (by simp [hg])]
      omega
    · rw [if_neg hc]
      omega

theorem objKeys_len_mergeRemoteDays (today : Day) (m : DayMap) (e : DayMap) :
    (objKeys (mergeRemoteDays today m e)).length ≤
      (objKeys m).length + e.length := by
  induction e generalizing m with
  | nil => simp [mergeRemoteDays]
  | cons p rest ih =>
      rw [mergeRemoteDays_cons]
      by_cases hskip : p.1 = today ∧ (objGet m p.1).isSome
      · rw [if_pos hskip]
        have := ih (m := m)
        simp only [List.length_cons]
        omega
      · rw [if_neg hskip]
        have h1 := ih (m := mergeDay m p.1 p.2)
        have h2 := objKeys_len_mergeDay m p.1 p.2
        simp only [List.length_cons]
        omega

/-! ## Lemmas: first-seen merges -/

theorem mergeFirstSeen_cons (m : List (String × Day)) (p : String × Day)
    (rest : List (String × Day)) :
    mergeFirstSeen m (p :: rest) =
      mergeFirstSeen
        (if objGet m p.1 = none then objSet m p.1 p.2 else m) rest := rfl

theorem objGet_mergeFirstSeen_of_some {m : List (String × Day)} {k : String}
    {v : Day} (e : List (String × Day)) (h : objGet m k = some v) :
    objGet (mergeFirstSeen m e) k = some v := by
  induction e generalizing m with
  | nil => exact h
  | cons p rest ih =>
      rw [mergeFirstSeen_cons]
      by_cases hp : objGet m p.1 = none
      · rw [if_pos hp]
        have hne : k ≠ p.1 := by
          intro hk
          rw [hk, hp] at h
          cases h
        exact ih (by rw [objGet_objSet_ne m p.2 hne]; exact h)
      · rw [if_neg hp]
        exact ih h

theorem mem_objKeys_mergeFirstSeen {m : List (String × Day)} {k : String}
    (e : List (String × Day)) (h : k ∈ objKeys m) :
    k ∈ objKeys (mergeFirstSeen m e) := by
  obtain ⟨v, hv⟩ := Option.isSome_iff_exists.mp (objGet_isSome_iff_mem.mpr h)
  exact objGet_isSome_iff_mem.mp
    (by simp [objGet_mergeFirstSeen_of_some e hv])

theorem mem_objKeys_mergeFirstSeen_of_entry {e : List (String × Day)}
    {p : String × Day} (m : List (String × Day)) (h : p ∈ e) :
    p.1 ∈ objKeys (mergeFirstSeen m e) := by
  revert h
  induction e generalizing m with
  | nil =>
      intro h
      cases h
  | cons q rest ih =>
      intro h
      rw [mergeFirstSeen_cons]
      rcases List.mem_cons.mp h with h1 | h1
      · subst h1
        by_cases hq : objGet m p.1 = none
        · rw [if_pos hq]
          exact mem_objKeys_mergeFirstSeen rest
            (mem_objKeys_objSet_self m p.1 p.2)
        · rw [if_neg hq]
          exact mem_objKeys_mergeFirstSeen rest
            (objGet_isSome_iff_mem.mp (Option.isSome_iff_ne_none.mpr hq))
      · exact ih _ h1

theorem mergeFirstSeen_of_present {m : List (String × Day)}
    {e : List (String × Day)}
    (h : ∀ p ∈ e, p.1 ∈ objKeys m) : mergeFirstSeen m e = m := by
  induction e with
  | nil => rfl
  | cons p rest ih =>
      rw [mergeFirstSeen_cons]
      have hp : ¬ objGet m p.1 = none := by
        rw [objGet_eq_none_iff]
        simp [h p (List.mem_cons_self p rest)]
      rw [if_neg hp]
      exact ih (fun q hq => h q (List.mem_cons_of_mem p hq))

theorem mergeFirstSeen_idem (m : List (String × Day))
    (e : List (String × Day)) :
    mergeFirstSeen (mergeFirstSeen m e) e = mergeFirstSeen m e :=
  mergeFirstSeen_of_present
    (fun _ hp => mem_objKeys_mergeFirstSeen_of_entry m hp)

/-! ## Lemmas: key sorting -/

theorem insertKey_perm (k : Day) (l : List Day) : insertKey k l ~ k :: l := by
  induction l with
  | nil => exact List.Perm.refl _
  | cons a l ih =>
      by_cases h : k ≤ a
      · simp [insertKey, h]
      · simp only [insertKey, if_neg h]
        exact (ih.cons a).trans (List.Perm.swap k a l)

theorem sortKeys_perm (l : List Day) : sortKeys l ~ l := by
  induction l with
  | nil => exact List.Perm.refl _
  | cons a l ih => exact (insertKey_perm a (sortKeys l)).trans (ih.cons a)

theorem insertKey_sorted {l : List Day} (k : Day) (h : l.Sorted (· ≤ ·)) :
    (insertKey k l).Sorted (· ≤ ·) := by
  induction l with
  | nil => simp [insertKey]
  | cons a l ih =>
      rw [List.sorted_cons] at h
      obtain ⟨ha, hl⟩ := h
      unfold insertKey
      by_cases hk : k ≤ a
      · rw [if_pos hk, List.sorted_cons]
        refine ⟨?_, List.sorted_cons.mpr ⟨ha, hl⟩⟩
        intro b hb
        rcases List.mem_cons.mp hb with rfl | hb
        · exact hk
        · exact le_trans hk (ha b hb)
      · rw [if_neg hk, List.sorted_cons]
        refine ⟨?_, ih hl⟩
        intro b hb
        have hb' := (insertKey_perm k l).mem_iff.mp hb
        rcases List.mem_cons.mp hb' with rfl | hb'
        · exact le_of_not_le hk
        · exact ha b hb'

theorem sortKeys_sorted (l : List Day) : (sortKeys l).Sorted (· ≤ ·) := by
  induction l with
  | nil => simp [sortKeys]
  | cons a l ih => exact insertKey_sorted a ih

theorem sortKeys_eq_of_sorted {l l' : List Day} (hp : l ~ l')
    (hs : l'.Sorted (· ≤ ·)) : sortKeys l = l' :=
  List.eq_of_perm_of_sorted ((sortKeys_perm l).trans hp) (sortKeys_sorted l) hs

theorem sortKeys_length (l : List Day) :
    (sortKeys l).length = l.length :=
  (sortKeys_perm l).length_eq

/-! ## Lemmas: the daily trim -/

theorem trimDaily_eq (m : DayMap) : trimDaily m =
    if MAX_DAILY_DAYS < (sortKeys (objKeys m)).length then
      ((sortKeys (objKeys m)).take
        ((sortKeys (objKeys m)).length - MAX_DAILY_DAYS)).foldl objDelete m
    else m := rfl

theorem trimDaily_of_small {m : DayMap}
    (h : (objKeys m).length ≤ MAX_DAILY_DAYS) : trimDaily m = m := by
  unfold trimDaily
  have hc : ¬ MAX_DAILY_DAYS < (sortKeys (objKeys m)).length := by
    rw [sortKeys_length]
    omega
  simp [hc]

theorem objGet_trimDaily_some {m : DayMap} {d : Day} {v : DayRollup}
    (h : objGet (trimDaily m) d = some v) : objGet m d = some v := by
  unfold trimDaily at h
  by_cases hc : MAX_DAILY_DAYS < (sortKeys (objKeys m)).length
  · rw [if_pos hc, objGet_foldl_objDelete] at h
    by_cases hd : d ∈ (sortKeys (objKeys m)).take
        ((sortKeys (objKeys m)).length - MAX_DAILY_DAYS)
    · rw [if_pos hd] at h
      cases h
    · rwa [if_neg hd] at h
  · rwa [if_neg hc] at h

theorem trimDaily_restore {M E : DayMap} (hM : (objKeys M).Nodup)
    (hEk : ∀ k ∈ objKeys E, k ∈ objKeys M ∧ k ∉ objKeys (trimDaily M)) :
    trimDaily (trimDaily M ++ E) = trimDaily M := by
  by_cases hn : MAX_DAILY_DAYS < (sortKeys (objKeys M)).length
  case neg =>
    have hT : trimDaily M = M := trimDaily_of_small (by
      rw [← sortKeys_length]; omega)
    have hE : E = [] := by
      cases E with
      | nil => rfl
      | cons p E' =>
          exfalso
          have hp := hEk p.1 (by simp [objKeys])
          rw [hT] at hp
          exact hp.2 hp.1
    rw [hT, hE, List.append_nil, hT]
  case pos =>
    have hTdef : trimDaily M = M.filter
        (fun p => p.1 ∉ (sortKeys (objKeys M)).take
          ((sortKeys (objKeys M)).length - MAX_DAILY_DAYS)) := by
      unfold trimDaily
      rw [if_pos hn, foldl_objDelete_eq_filter]
    set s := sortKeys (objKeys M) with hsdef
    set R := s.take (s.length - MAX_DAILY_DAYS) with hRdef
    set D := s.drop (s.length - MAX_DAILY_DAYS) with hDdef
    have hsD : s = R ++ D := (List.take_append_drop _ s).symm
    have hsSorted : s.Sorted (· ≤ ·) := sortKeys_sorted _
    have hsNodup : s.Nodup := ((sortKeys_perm _).nodup_iff).mpr hM
    have hsLt : s.Pairwise (· < ·) :=
      (hsSorted.and hsNodup).imp (fun h => lt_of_le_of_ne h.1 h.2)
    have hsplit := List.pairwise_append.mp (hsD ▸ hsLt)
    have hcross : ∀ r ∈ R, ∀ dd ∈ D, r < dd := hsplit.2.2
    have hDle : D.Sorted (· ≤ ·) :=
      (List.pairwise_append.mp (hsD ▸ hsSorted)).2.1
    have hDlen : D.length = MAX_DAILY_DAYS := by
      rw [hDdef, List.length_drop]
      omega
    have hRD_disj : ∀ x ∈ R, x ∉ D := by
      have := List.nodup_append.mp (hsD ▸ hsNodup)
      exact fun x hx => this.2.2 hx
    have hkeysT_perm : objKeys (trimDaily M) ~ D := by
      rw [hTdef, objKeys_filter (fun k => decide (k ∉ R)) M]
      have h1 : (objKeys M).filter (fun k => k ∉ R) ~
          s.filter (fun k => k ∉ R) :=
        ((sortKeys_perm (objKeys M)).symm.filter _)
      have h2 : s.filter (fun k => k ∉ R) = D := by
        rw [hsD, List.filter_append]
        have hRnil : R.filter (fun k => k ∉ R) = [] := by
          rw [List.filter_eq_nil_iff]
          intro a ha
          simp [ha]
        have hDall : D.filter (fun k => k ∉ R) = D := by
          rw [List.filter_eq_self]
          intro a ha
          simp only [decide_eq_true_eq]
          exact fun haR => hRD_disj a haR ha
        rw [hRnil, hDall, List.nil_append]
      rw [← h2]
      exact h1
    have hkeysT_len : (objKeys (trimDaily M)).length = MAX_DAILY_DAYS := by
      rw [hkeysT_perm.length_eq, hDlen]
    by_cases hE0 : E = []
    · rw [hE0, List.append_nil]
      exact trimDaily_of_small (le_of_eq hkeysT_len)
    · have hElen : 0 < (objKeys E).length := by
        cases E with
        | nil => exact absurd rfl hE0
        | cons p E' => simp [objKeys]
      have hEsubR : ∀ k ∈ objKeys E, k ∈ R := by
        intro k hk
        obtain ⟨hkM, hkT⟩ := hEk k hk
        have hks : k ∈ s := (sortKeys_perm (objKeys M)).mem_iff.mpr hkM
        rw [hsD] at hks
        rcases List.mem_append.mp hks with h | h
        · exact h
        · exact absurd (hkeysT_perm.mem_iff.mpr h) hkT
      have hcross2 : ∀ x ∈ sortKeys (objKeys E), ∀ y ∈ D, x ≤ y := by
        intro x hx y hy
        exact le_of_lt
          (hcross x (hEsubR x ((sortKeys_perm _).mem_iff.mp hx)) y hy)
      have hcand_sorted : (sortKeys (objKeys E) ++ D).Sorted (· ≤ ·) :=
        List.pairwise_append.mpr ⟨sortKeys_sorted _, hDle, hcross2⟩
      have hperm2 : objKeys (trimDaily M) ++ objKeys E ~
          sortKeys (objKeys E) ++ D := by
        calc objKeys (trimDaily M) ++ objKeys E
            ~ D ++ objKeys E := hkeysT_perm.append_right _
          _ ~ objKeys E ++ D := List.perm_append_comm
          _ ~ sortKeys (objKeys E) ++ D :=
              ((sortKeys_perm (objKeys E)).symm.append_right D)
      have hs2 : sortKeys (objKeys (trimDaily M ++ E)) =
          sortKeys (objKeys E) ++ D := by
        rw [objKeys_append]
        exact sortKeys_eq_of_sorted hperm2 hcand_sorted
      have hlen2 : (sortKeys (objKeys (trimDaily M ++ E))).length =
          (objKeys E).length + MAX_DAILY_DAYS := by
        rw [hs2, List.length_append, sortKeys_length, hDlen]
      have hgt2 : MAX_DAILY_DAYS <
          (sortKeys (objKeys (trimDaily M ++ E))).length := by
        omega
      have htake : (sortKeys (objKeys (trimDaily M ++ E))).take
          ((sortKeys (objKeys (trimDaily M ++ E))).length - MAX_DAILY_DAYS)
          = sortKeys (objKeys E) := by
        rw [hlen2, hs2]
        have hamount : (objKeys E).length + MAX_DAILY_DAYS - MAX_DAILY_DAYS
            = (sortKeys (objKeys E)).length := by
          rw [sortKeys_length]
          omega
        rw [hamount]
        exact List.take_left _ _
      have hfinal : trimDaily (trimDaily M ++ E) =
          (trimDaily M ++ E).filter
            (fun p => p.1 ∉ sortKeys (objKeys E)) := by
        rw [trimDaily_eq, if_pos hgt2, htake, foldl_objDelete_eq_filter]
      rw [hfinal, List.filter_append]
      have hTkeep : (trimDaily M).filter
          (fun p => p.1 ∉ sortKeys (objKeys E)) = trimDaily M := by
        rw [List.filter_eq_self]
        intro p hp
        simp only [decide_eq_true_eq]
        intro hmem
        have h1 : p.1 ∈ objKeys E :=
          (sortKeys_perm (objKeys E)).mem_iff.mp hmem
        have h2 : p.1 ∈ objKeys (trimDaily M) :=
          List.mem_map_of_mem Prod.fst hp
        exact (hEk p.1 h1).2 h2
      have hEdrop : E.filter (fun p => p.1 ∉ sortKeys (objKeys E)) = [] := by
        rw [List.filter_eq_nil_iff]
        intro p hp
        simp only [decide_eq_true_eq, not_not]
        exact (sortKeys_perm (objKeys E)).mem_iff.mpr
          (List.mem_map_of_mem Prod.fst hp)
      rw [hTkeep, hEdrop, List.append_nil]

/-! ## Lemmas: merging on top of a settled prefix

When every entry whose key already lives in the prefix `A` is absorbed
(the stored `txCount` is at least the entry's), a merge pass can only
rewrite or extend the suffix. -/

theorem mergeAll_preserve_prefix (A : DayMap) :
    ∀ (e B : DayMap),
    (∀ p ∈ e, p.1 ∈ objKeys A →
      ∃ w, objGet A p.1 = some w ∧ p.2.txCount ≤ w.txCount) →
    (objKeys B).Nodup → (∀ k ∈ objKeys B, k ∉ objKeys A) →
    ∃ B', mergeAll (A ++ B) e = A ++ B' ∧ (objKeys B').Nodup ∧
      (∀ k ∈ objKeys B', k ∉ objKeys A) ∧
      (∀ k ∈ objKeys B', k ∈ objKeys B ∨ k ∈ objKeys e) := by
  intro e
  induction e with
  | nil =>
      intro B _ hnd hdisj
      exact ⟨B, rfl, hnd, hdisj, fun k hk => Or.inl hk⟩
  | cons p rest ih =>
      intro B hB hnd hdisj
      rw [mergeAll_cons]
      by_cases hpA : p.1 ∈ objKeys A
      · obtain ⟨w, hw, hle⟩ := hB p (List.mem_cons_self p rest) hpA
        have hstep : mergeDay (A ++ B) p.1 p.2 = A ++ B := by
          rw [mergeDay_of_get_some p.2 (objGet_append_of_some hw),
            if_neg (by omega)]
        rw [hstep]
        obtain ⟨B', h1, h2, h3, h4⟩ :=
          ih B (fun q hq => hB q (List.mem_cons_of_mem p hq)) hnd hdisj
        refine ⟨B', h1, h2, h3, fun k hk => ?_⟩
        rcases h4 k hk with hkB | hkR
        · exact Or.inl hkB
        · exact Or.inr (List.mem_cons_of_mem _ hkR)
      · have hgA : objGet A p.1 = none := objGet_eq_none_iff.mpr hpA
        have happ : objGet (A ++ B) p.1 = objGet B p.1 :=
          objGet_append_of_none hgA
        rcases hgB : objGet B p.1 with _ | e0
        · have hstep : mergeDay (A ++ B) p.1 p.2
              = A ++ (B ++ [(p.1, p.2)]) := by
            rw [mergeDay_of_get_none p.2 (by rw [happ, hgB]),
              objSet_append_right hgA, objSet_of_get_none hgB]
          rw [hstep]
          have hndB2 : (objKeys (B ++ [(p.1, p.2)])).Nodup :=
            nodup_objKeys_append_singleton p.2 hnd (objGet_eq_none_iff.mp hgB)
          have hdisj2 : ∀ k ∈ objKeys (B ++ [(p.1, p.2)]), k ∉ objKeys A := by
            intro k hk
            rw [objKeys_append] at hk
            rcases List.mem_append.mp hk with hk | hk
            · exact hdisj k hk
            · have : k = p.1 := by simpa [objKeys] using hk
              rw [this]
              exact hpA
          obtain ⟨B', h1, h2, h3, h4⟩ :=
            ih (B ++ [(p.1, p.2)])
              (fun q hq => hB q (List.mem_cons_of_mem p hq)) hndB2 hdisj2
          refine ⟨B', h1, h2, h3, fun k hk => ?_⟩
          rcases h4 k hk with hkB | hkR
          · rw [objKeys_append] at hkB
            rcases List.mem_append.mp hkB with hk2 | hk2
            · exact Or.inl hk2
            · have : k = p.1 := by simpa [objKeys] using hk2
              rw [this]
              exact Or.inr (by simp [objKeys])
          · exact Or.inr (List.mem_cons_of_mem _ hkR)
        · by_cases hlt : e0.txCount < p.2.txCount
          · have hstep : mergeDay (A ++ B) p.1 p.2
                = A ++ objSet B p.1 p.2 := by
              rw [mergeDay_of_get_some p.2 (by rw [happ, hgB]), if_pos hlt,
                objSet_append_right hgA]
            rw [hstep]
            have hkeys : objKeys (objSet B p.1 p.2) = objKeys B :=
              objKeys_objSet_of_get_some (by simp [hgB]) p.2
            obtain ⟨B', h1, h2, h3, h4⟩ :=
              ih (objSet B p.1 p.2)
                (fun q hq => hB q (List.mem_cons_of_mem p hq))
                (by rw [hkeys]; exact hnd)
                (by rw [hkeys]; exact hdisj)
            refine ⟨B', h1, h2, h3, fun k hk => ?_⟩
            rcases h4 k hk with hkB | hkR
            · rw [hkeys] at hkB
              exact Or.inl hkB
            · exact Or.inr (List.mem_cons_of_mem _ hkR)
          · have hstep : mergeDay (A ++ B) p.1 p.2 = A ++ B := by
              rw [mergeDay_of_get_some p.2 (by rw [happ, hgB]), if_neg hlt]
            rw [hstep]
            obtain ⟨B', h1, h2, h3, h4⟩ :=
              ih B (fun q hq => hB q (List.mem_cons_of_mem p hq)) hnd hdisj
            refine ⟨B', h1, h2, h3, fun k hk => ?_⟩
            rcases h4 k hk with hkB | hkR
            · exact Or.inl hkB
            · exact Or.inr (List.mem_cons_of_mem _ hkR)

theorem mergeRemoteDays_preserve_prefix (today : Day) (A : DayMap) :
    ∀ (e B : DayMap),
    (∀ p ∈ e, p.1 ∈ objKeys A → p.1 = today ∨
      ∃ w, objGet A p.1 = some w ∧ p.2.txCount ≤ w.txCount) →
    (objKeys B).Nodup → (∀ k ∈ objKeys B, k ∉ objKeys A) →
    ∃ B', mergeRemoteDays today (A ++ B) e = A ++ B' ∧
      (objKeys B').Nodup ∧ (∀ k ∈ objKeys B', k ∉ objKeys A) ∧
      (∀ k ∈ objKeys B', k ∈ objKeys B ∨ k ∈ objKeys e) := by
  intro e
  induction e with
  | nil =>
      intro B _ hnd hdisj
      exact ⟨B, rfl, hnd, hdisj, fun k hk => Or.inl hk⟩
  | cons p rest ih =>
      intro B hB hnd hdisj
      rw [mergeRemoteDays_cons]
      have hrec : ∀ B₂ : DayMap,
          (if p.1 = today ∧ (objGet (A ++ B) p.1).isSome then A ++ B
            else mergeDay (A ++ B) p.1 p.2) = A ++ B₂ →
          (objKeys B₂).Nodup → (∀ k ∈ objKeys B₂, k ∉ objKeys A) →
          (∀ k ∈ objKeys B₂, k ∈ objKeys B ∨ k = p.1) →
          ∃ B', mergeRemoteDays today
              (if p.1 = today ∧ (objGet (A ++ B) p.1).isSome then A ++ B
                else mergeDay (A ++ B) p.1 p.2) rest = A ++ B' ∧
            (objKeys B').Nodup ∧ (∀ k ∈ objKeys B', k ∉ objKeys A) ∧
            (∀ k ∈ objKeys B', k ∈ objKeys B ∨ k ∈ objKeys (p :: rest)) := by
        intro B₂ hstep hnd2 hdisj2 hprov
        rw [hstep]
        obtain ⟨B', h1, h2, h3, h4⟩ :=
          ih B₂ (fun q hq => hB q (List.mem_cons_of_mem p hq)) hnd2 hdisj2
        refine ⟨B', h1, h2, h3, fun k hk => ?_⟩
        rcases h4 k hk with hkB | hkR
        · rcases hprov k hkB with hk2 | hk2
          · exact Or.inl hk2
          · exact Or.inr (by simp [objKeys, hk2])
        · exact Or.inr (List.mem_cons_of_mem _ hkR)
      by_cases hskip : p.1 = today ∧ (objGet (A ++ B) p.1).isSome
      · exact hrec B (by rw [if_pos hskip]) hnd hdisj (fun k hk => Or.inl hk)
      · by_cases hpA : p.1 ∈ objKeys A
        · rcases hB p (List.mem_cons_self p rest) hpA with htoday | hbound
          · exfalso
            apply hskip
            refine ⟨htoday, ?_⟩
            obtain ⟨w, hw⟩ := Option.isSome_iff_exists.mp
              (objGet_isSome_iff_mem.mpr hpA)
            simp [objGet_append_of_some hw]
          · obtain ⟨w, hw, hle⟩ := hbound
            refine hrec B ?_ hnd hdisj (fun k hk => Or.inl hk)
            rw [if_neg hskip,
              mergeDay_of_get_some p.2 (objGet_append_of_some hw),
              if_neg (by omega)]
        · have hgA : objGet A p.1 = none := objGet_eq_none_iff.mpr hpA
          have happ : objGet (A ++ B) p.1 = objGet B p.1 :=
            objGet_append_of_none hgA
          rcases hgB : objGet B p.1 with _ | e0
          · refine hrec (B ++ [(p.1, p.2)]) ?_ ?_ ?_ ?_
            · rw [if_neg hskip,
                mergeDay_of_get_none p.2 (by rw [happ, hgB]),
                objSet_append_right hgA, objSet_of_get_none hgB]
            · exact nodup_objKeys_append_singleton p.2 hnd
                (objGet_eq_none_iff.mp hgB)
            · intro k hk
              rw [objKeys_append] at hk
              rcases List.mem_append.mp hk with hk | hk
              · exact hdisj k hk
              · have : k = p.1 := by simpa [objKeys] using hk
                rw [this]
                exact hpA
            · intro k hk
              rw [objKeys_append] at hk
              rcases List.mem_append.mp hk with hk | hk
              · exact Or.inl hk
              · exact Or.inr (by simpa [objKeys] using hk)
          · by_cases hlt : e0.txCount < p.2.txCount
            · have hkeys : objKeys (objSet B p.1 p.2) = objKeys B :=
                objKeys_objSet_of_get_some (by simp [hgB]) p.2
              refine hrec (objSet B p.1 p.2) ?_ (by rw [hkeys]; exact hnd)
                (by rw [hkeys]; exact hdisj)
                (fun k hk => Or.inl (by rwa [hkeys] at hk))
              rw [if_neg hskip,
                mergeDay_of_get_some p.2 (by rw [happ, hgB]), if_pos hlt,
                objSet_append_right hgA]
            · exact hrec B
                (by rw [if_neg hskip,
                  mergeDay_of_get_some p.2 (by rw [happ, hgB]), if_neg hlt])
                hnd hdisj (fun k hk => Or.inl hk)

/-! ## Idempotence of the two rollup merges -/

theorem saveDailyStats_eq (st : EngineState) :
    saveDailyStats st
      = { st with
          dailyStats := trimDaily (mergeAll st.dailyStats
                          (computeLiveDailyRollups st.ledgers)) } := rfl

theorem mem_objKeys_mergeAll_of_key {e : DayMap} {k : Day} (m : DayMap)
    (h : k ∈ objKeys e) : k ∈ objKeys (mergeAll m e) := by
  obtain ⟨v, hv⟩ := exists_entry_of_mem_objKeys h
  exact mem_objKeys_mergeAll_of_entry m hv

theorem mem_objKeys_mergeRemoteDays_of_key {e : DayMap} {k : Day}
    (today : Day) (m : DayMap) (h : k ∈ objKeys e) :
    k ∈ objKeys (mergeRemoteDays today m e) := by
  obtain ⟨v, hv⟩ := exists_entry_of_mem_objKeys h
  exact mem_objKeys_mergeRemoteDays_of_entry today m hv

theorem saveDailyStats_idem (st : EngineState)
    (hd : (objKeys st.dailyStats).Nodup) :
    saveDailyStats (saveDailyStats st) = saveDailyStats st := by
  set live := computeLiveDailyRollups st.ledgers with hlive
  set M := mergeAll st.dailyStats live with hMdef
  set T := trimDaily M with hTdef
  have hMnd : (objKeys M).Nodup := nodup_objKeys_mergeAll live hd
  have habsorb : ∀ p ∈ live, p.1 ∈ objKeys T →
      ∃ w, objGet T p.1 = some w ∧ p.2.txCount ≤ w.txCount := by
    intro p hp hpT
    obtain ⟨w, hw⟩ := Option.isSome_iff_exists.mp
      (objGet_isSome_iff_mem.mpr hpT)
    refine ⟨w, hw, ?_⟩
    have hwM : objGet M p.1 = some w := objGet_trimDaily_some hw
    obtain ⟨w', hw', hle'⟩ := mergeAll_entry_bound st.dailyStats
      (show (p.1, p.2) ∈ live by simpa using hp)
    rw [← hMdef] at hw'
    rw [hw'] at hwM
    cases hwM
    exact hle'
  obtain ⟨B', hB'eq, _, hB'disj, hB'prov⟩ :=
    mergeAll_preserve_prefix T live [] habsorb (by simp [objKeys])
      (by simp [objKeys])
  have heq2 : mergeAll T live = T ++ B' := by
    rw [← hB'eq, List.append_nil]
  have hEk : ∀ k ∈ objKeys B', k ∈ objKeys M ∧ k ∉ objKeys T := by
    intro k hk
    refine ⟨?_, hB'disj k hk⟩
    rcases hB'prov k hk with h | h
    · simp [objKeys] at h
    · exact mem_objKeys_mergeAll_of_key st.dailyStats h
  have htrim : trimDaily (T ++ B') = T := trimDaily_restore hMnd hEk
  have houter : saveDailyStats (saveDailyStats st)
      = { saveDailyStats st with
          dailyStats := trimDaily (mergeAll T live) } := rfl
  rw [houter, heq2, htrim]
  rfl

theorem loadRemoteStats_eq (today : Day) (st : EngineState)
    (r : RemoteSnapshot) :
    loadRemoteStats today st r = saveDailyStats
      { st with
        firstSeen := mergeFirstSeen st.firstSeen r.firstSeen,
        dailyStats := mergeRemoteDays today st.dailyStats r.days } :=
  rfl

theorem loadRemoteStats_idem (today : Day) (st : EngineState)
    (r : RemoteSnapshot) (hd : (objKeys st.dailyStats).Nodup) :
    loadRemoteStats today (loadRemoteStats today st r) r
      = loadRemoteStats today st r := by
  set F1 := mergeFirstSeen st.firstSeen r.firstSeen with hF1
  set D1 := mergeRemoteDays today st.dailyStats r.days with hD1
  set live := computeLiveDailyRollups st.ledgers with hlive
  set M1 := mergeAll D1 live with hM1
  set T1 := trimDaily M1 with hT1
  have hst1 : loadRemoteStats today st r
      = { st with firstSeen := F1, dailyStats := T1 } := rfl
  have hD1nd : (objKeys D1).Nodup :=
    nodup_objKeys_mergeRemoteDays today r.days hd
  have hM1nd : (objKeys M1).Nodup := nodup_objKeys_mergeAll live hD1nd
  -- second remote pass is absorbed into or appended after T1
  have hB : ∀ p ∈ r.days, p.1 ∈ objKeys T1 → p.1 = today ∨
      ∃ w, objGet T1 p.1 = some w ∧ p.2.txCount ≤ w.txCount := by
    intro p hp hpT
    by_cases hpt : p.1 = today
    · exact Or.inl hpt
    · refine Or.inr ?_
      obtain ⟨w, hw⟩ := Option.isSome_iff_exists.mp
        (objGet_isSome_iff_mem.mpr hpT)
      refine ⟨w, hw, ?_⟩
      have hwM : objGet M1 p.1 = some w := objGet_trimDaily_some hw
      obtain ⟨v, hv, hvle⟩ := mergeRemoteDays_entry_bound today st.dailyStats
        (show (p.1, p.2) ∈ r.days by simpa using hp) hpt
      rw [← hD1] at hv
      obtain ⟨w', hw', hle'⟩ := mergeAll_mono live hv
      rw [← hM1] at hw'
      rw [hw'] at hwM
      cases hwM
      exact le_trans hvle hle'
  obtain ⟨B', hB'eq, hB'nd, hB'disj, hB'prov⟩ :=
    mergeRemoteDays_preserve_prefix today T1 r.days [] hB
      (by simp [objKeys]) (by simp [objKeys])
  have heq2 : mergeRemoteDays today T1 r.days = T1 ++ B' := by
    rw [← hB'eq, List.append_nil]
  -- the live pass on top of that is absorbed or appended as well
  have habsorb : ∀ p ∈ live, p.1 ∈ objKeys T1 →
      ∃ w, objGet T1 p.1 = some w ∧ p.2.txCount ≤ w.txCount := by
    intro p hp hpT
    obtain ⟨w, hw⟩ := Option.isSome_iff_exists.mp
      (objGet_isSome_iff_mem.mpr hpT)
    refine ⟨w, hw, ?_⟩
    have hwM : objGet M1 p.1 = some w := objGet_trimDaily_some hw
    obtain ⟨w', hw', hle'⟩ := mergeAll_entry_bound D1
      (show (p.1, p.2) ∈ live by simpa using hp)
    rw [← hM1] at hw'
    rw [hw'] at hwM
    cases hwM
    exact hle'
  obtain ⟨B'', hB''eq, _, hB''disj, hB''prov⟩ :=
    mergeAll_preserve_prefix T1 live B' habsorb hB'nd hB'disj
  have hEk : ∀ k ∈ objKeys B'', k ∈ objKeys M1 ∧ k ∉ objKeys T1 := by
    intro k hk
    refine ⟨?_, hB''disj k hk⟩
    rcases hB''prov k hk with h | h
    · rcases hB'prov k h with h2 | h2
      · simp [objKeys] at h2
      · exact mem_objKeys_mergeAll live
          (mem_objKeys_mergeRemoteDays_of_key today st.dailyStats h2)
    · exact mem_objKeys_mergeAll_of_key D1 h
  have htrim : trimDaily (T1 ++ B'') = T1 := trimDaily_restore hM1nd hEk
  have houter : loadRemoteStats today (loadRemoteStats today st r) r
      = { loadRemoteStats today st r with
          firstSeen := mergeFirstSeen F1 r.firstSeen,
          dailyStats := trimDaily (mergeAll
                          (mergeRemoteDays today T1 r.days) live) } := rfl
  rw [houter, heq2, hB''eq, htrim, hF1, mergeFirstSeen_idem]
  rw [hst1]

/-! ## Per-day txCount lower bounds of the merges -/

theorem saveDailyStats_txCount_bound (st : EngineState) {d : Day}
    {v : DayRollup} (hv : objGet (saveDailyStats st).dailyStats d = some v) :
    (∀ old, objGet st.dailyStats d = some old →
      old.txCount ≤ v.txCount) ∧
    (∀ lv, objGet (computeLiveDailyRollups st.ledgers) d = some lv →
      lv.txCount ≤ v.txCount) := by
  have hv' : objGet (mergeAll st.dailyStats
      (computeLiveDailyRollups st.ledgers)) d = some v :=
    objGet_trimDaily_some hv
  constructor
  · intro old hold
    obtain ⟨w, hw, hle⟩ :=
      mergeAll_mono (computeLiveDailyRollups st.ledgers) hold
    rw [hw] at hv'
    cases hv'
    exact hle
  · intro lv hlv
    obtain ⟨w, hw, hle⟩ :=
      mergeAll_entry_bound st.dailyStats (objGet_mem_of_some hlv)
    rw [hw] at hv'
    cases hv'
    exact hle

theorem loadRemoteStats_txCount_bound (today : Day) (st : EngineState)
    (r : RemoteSnapshot) {d : Day} {v : DayRollup}
    (hv : objGet (loadRemoteStats today st r).dailyStats d = some v) :
    (∀ old, objGet st.dailyStats d = some old →
      old.txCount ≤ v.txCount) ∧
    (d ≠ today → ∀ rv, objGet r.days d = some rv →
      rv.txCount ≤ v.txCount) ∧
    (∀ lv, objGet (computeLiveDailyRollups st.ledgers) d = some lv →
      lv.txCount ≤ v.txCount) := by
  have hv' : objGet (mergeAll
      (mergeRemoteDays today st.dailyStats r.days)
      (computeLiveDailyRollups st.ledgers)) d = some v :=
    objGet_trimDaily_some hv
  refine ⟨?_, ?_, ?_⟩
  · intro old hold
    obtain ⟨w1, hw1, hle1⟩ := mergeRemoteDays_mono today r.days hold
    obtain ⟨w2, hw2, hle2⟩ :=
      mergeAll_mono (computeLiveDailyRollups st.ledgers) hw1
    rw [hw2] at hv'
    cases hv'
    exact le_trans hle1 hle2
  · intro hdt rv hrv
    obtain ⟨w1, hw1, hle1⟩ := mergeRemoteDays_entry_bound today st.dailyStats
      (objGet_mem_of_some hrv) hdt
    obtain ⟨w2, hw2, hle2⟩ :=
      mergeAll_mono (computeLiveDailyRollups st.ledgers) hw1
    rw [hw2] at hv'
    cases hv'
    exact le_trans hle1 hle2
  · intro lv hlv
    obtain ⟨w, hw, hle⟩ := mergeAll_entry_bound
      (mergeRemoteDays today st.dailyStats r.days) (objGet_mem_of_some hlv)
    rw [hw] at hv'
    cases hv'
    exact hle

/-- The per-day lookup behaviour of the remote `days` merge loop, for a
remote document with duplicate-free day keys. -/
theorem mergeRemoteDays_get {e : DayMap} (today : Day) (m : DayMap)
    (d : Day) (hn : (objKeys e).Nodup) :
    objGet (mergeRemoteDays today m e) d =
      if d = today ∧ (objGet m d).isSome then objGet m d
      else
        match objGet m d, objGet e d with
        | some ex, some rv =>
            some (if ex.txCount < rv.txCount then rv else ex)
        | some ex, none => some ex
        | none, some rv => some rv
        | none, none => none := by
  induction e generalizing m with
  | nil =>
      show objGet m d = _
      by_cases hc : d = today ∧ (objGet m d).isSome
      · rw [if_pos hc]
      · rw [if_neg hc]
        rcases objGet m d with _ | ex <;> rfl
  | cons p rest ih =>
      obtain ⟨q, w⟩ := p
      have hqrest : q ∉ objKeys rest := by
        have := hn
        simp only [objKeys, List.map_cons, List.nodup_cons] at this
        exact this.1
      have hrest_nodup : (objKeys rest).Nodup := by
        have := hn
        simp only [objKeys, List.map_cons, List.nodup_cons] at this
        exact this.2
      rw [mergeRemoteDays_cons]
      by_cases hqd : q = d
      · subst hqd
        have hd_rest : objGet rest q = none :=
          objGet_eq_none_iff.mpr hqrest
        have hflat : ∀ m' : DayMap,
            objGet (mergeRemoteDays today m' rest) q = objGet m' q := by
          intro m'
          rw [ih m' hrest_nodup, hd_rest]
          by_cases hc : q = today ∧ (objGet m' q).isSome
          · rw [if_pos hc]
          · rw [if_neg hc]
            rcases objGet m' q with _ | ex <;> rfl
        by_cases hskip : (q, w).1 = today ∧ (objGet m (q, w).1).isSome
        · rw [if_pos hskip, hflat m, if_pos (by exact hskip)]
        · rw [if_neg hskip, hflat (mergeDay m (q, w).1 (q, w).2)]
          rcases hm : objGet m q with _ | ex
          · rw [mergeDay_of_get_none _ hm, objGet_objSet_self]
            simp [objGet_cons]
          · rw [mergeDay_of_get_some _ hm]
            have hqt : ¬ (q = today ∧
                (some ex : Option DayRollup).isSome = true) :=
              fun hcon => hskip ⟨hcon.1, by simp [hm]⟩
            rw [if_neg hqt, objGet_cons, if_pos rfl]
            by_cases hlt : ex.txCount < w.txCount <;>
              simp [hlt, hm, objGet_objSet_self]
      · have hm' : objGet
            (if (q, w).1 = today ∧ (objGet m (q, w).1).isSome then m
              else mergeDay m (q, w).1 (q, w).2) d = objGet m d := by
          by_cases hskip : (q, w).1 = today ∧ (objGet m (q, w).1).isSome
          · rw [if_pos hskip]
          · rw [if_neg hskip]
            exact objGet_mergeDay_ne (q, w).2 (fun h => hqd h.symm)
        rw [ih _ hrest_nodup, hm', objGet_cons, if_neg hqd]

/-! ## Claim C1 -/

/-- C1, counterexample.  The merge replaces a whole day record when the
remote `txCount` is higher, so `activeWallets` can drop: the local source
records 100 active wallets for day 0, the remote 5 (with higher
`txCount`), and after `loadRemoteStats` (for a day other than today) the
canonical `activeWallets` is 5, not `≥ max(100, 5)`.  This falsifies the
claim that `activeWallets` is monotonically non-decreasing under
merges. -/
theorem claim1_counterexample :
    objGet c1State.dailyStats 0 = some ⟨10, 100, none⟩ ∧
    objGet c1Remote.days 0 = some ⟨20, 5, none⟩ ∧
    objGet (loadRemoteStats 1 c1State c1Remote).dailyStats 0
      = some ⟨20, 5, none⟩ ∧
    ¬ (100 : Nat) ≤ 5 := by
  refine ⟨by decide, by decide, ?_, by decide⟩
  decide

/-- **C1** (amended).  For every day surviving in the canonical rollup
table after a merge, the resulting `txCount` is at least that day's
`txCount` in every individual source (the previously persisted table, the
live session rollups, and — for days other than today — the remote
snapshot), and merging the same source twice changes nothing
(`saveDailyStats` and `loadRemoteStats` with the same remote are
idempotent).  The original claim additionally asserted the same lower
bound for `activeWallets`, which the code does not guarantee
(see the counterexample): the merge keeps whole day records keyed on
`txCount` alone, so only `txCount` is monotone. -/
theorem claim1_merge_monotone_idempotent (st : EngineState)
    (r : RemoteSnapshot) (today : Day)
    (hd : (objKeys st.dailyStats).Nodup) :
    (∀ d v, objGet (saveDailyStats st).dailyStats d = some v →
      (∀ old, objGet st.dailyStats d = some old →
        old.txCount ≤ v.txCount) ∧
      (∀ lv, objGet (computeLiveDailyRollups st.ledgers) d = some lv →
        lv.txCount ≤ v.txCount)) ∧
    (∀ d v, objGet (loadRemoteStats today st r).dailyStats d = some v →
      (∀ old, objGet st.dailyStats d = some old →
        old.txCount ≤ v.txCount) ∧
      (d ≠ today → ∀ rv, objGet r.days d = some rv →
        rv.txCount ≤ v.txCount) ∧
      (∀ lv, objGet (computeLiveDailyRollups st.ledgers) d = some lv →
        lv.txCount ≤ v.txCount)) ∧
    saveDailyStats (saveDailyStats st) = saveDailyStats st ∧
    loadRemoteStats today (loadRemoteStats today st r) r
      = loadRemoteStats today st r :=
  ⟨fun _ _ hv => saveDailyStats_txCount_bound st hv,
   fun _ _ hv => loadRemoteStats_txCount_bound today st r hv,
   saveDailyStats_idem st hd,
   loadRemoteStats_idem today st r hd⟩

/-- C1, witness: the amended theorem applied at the counterexample's
concrete state (whose day keys are duplicate-free). -/
theorem claim1_witness :
    (objKeys c1State.dailyStats).Nodup ∧
    (saveDailyStats (saveDailyStats c1State) = saveDailyStats c1State ∧
      loadRemoteStats 1 (loadRemoteStats 1 c1State c1Remote) c1Remote
        = loadRemoteStats 1 c1State c1Remote) :=
  ⟨by decide,
   (claim1_merge_monotone_idempotent c1State c1Remote 1 (by decide)).2.2⟩

/-! ## Claim C2 -/

/-- **C2**.  When `loadRemoteStats` merges a remote snapshot (stated here
for a session with no live ledgers, duplicate-free remote day keys, and a
table small enough that the 90-day trim does not fire): for the current
UTC day, if a local `dailyStats` entry already exists the remote record is
ignored entirely and the local entry is kept; for every other day the
record kept is whichever of the local and remote entries has the strictly
higher `txCount` (remote replaces local only when
`remote.txCount > local.txCount`; ties keep local). -/
theorem claim2_remote_merge_rule (today : Day) (st : EngineState)
    (r : RemoteSnapshot) (d : Day)
    (hled : st.ledgers = [])
    (hrd : (objKeys r.days).Nodup)
    (hlen : (objKeys st.dailyStats).length + r.days.length
      ≤ MAX_DAILY_DAYS) :
    objGet (loadRemoteStats today st r).dailyStats d =
      if d = today ∧ (objGet st.dailyStats d).isSome then
        objGet st.dailyStats d
      else
        match objGet st.dailyStats d, objGet r.days d with
        | some ex, some rv =>
            some (if ex.txCount < rv.txCount then rv else ex)
        | some ex, none => some ex
        | none, some rv => some rv
        | none, none => none := by
  have hds : (loadRemoteStats today st r).dailyStats
      = trimDaily (mergeAll (mergeRemoteDays today st.dailyStats r.days)
          (computeLiveDailyRollups st.ledgers)) := rfl
  rw [hds, hled]
  show objGet (trimDaily (mergeRemoteDays today st.dailyStats r.days)) d = _
  have htrim : trimDaily (mergeRemoteDays today st.dailyStats r.days)
      = mergeRemoteDays today st.dailyStats r.days :=
    trimDaily_of_small (le_trans
      (objKeys_len_mergeRemoteDays today st.dailyStats r.days) hlen)
  rw [htrim, mergeRemoteDays_get today st.dailyStats d hrd]

/-- C2, witness: the spec's scenario.  Today (day 10) keeps the local
record with `txCount = 50` although the remote has 80; yesterday (day 9)
takes the remote record with `txCount = 60 = max(40, 60)`. -/
theorem claim2_witness :
    (c2State.ledgers = [] ∧ (objKeys c2Remote.days).Nodup ∧
      (objKeys c2State.dailyStats).length + c2Remote.days.length
        ≤ MAX_DAILY_DAYS) ∧
    objGet (loadRemoteStats 10 c2State c2Remote).dailyStats 10
      = some ⟨50, 3, none⟩ ∧
    objGet (loadRemoteStats 10 c2State c2Remote).dailyStats 9
      = some ⟨60, 7, none⟩ :=
  ⟨⟨rfl, by decide, by decide⟩,
   by rw [claim2_remote_merge_rule 10 c2State c2Remote 10 rfl (by decide)
        (by decide)]
      decide,
   by rw [claim2_remote_merge_rule 10 c2State c2Remote 9 rfl (by decide)
        (by decide)]
      decide⟩

/-! ## Claim C10 -/

/-- **C10**.  A ledger whose effective sequence identifier
(`ledger_index || seqNum`) is the number 0 is rejected by `processLedger`
exactly as when the sequence is absent: the call leaves the whole engine
state (ledgers, recentTxnTimes, lastLedgerTime, firstSeen, dailyStats)
unchanged, because the presence test `if (!seq) return` treats every
falsy sequence value as missing. -/
theorem claim10_zero_seq_rejected (now : Int) (st : EngineState)
    (L : RawLedger)
    (h : numOr L.ledger_index L.seqNum = some 0 ∨
      numOr L.ledger_index L.seqNum = none) :
    processLedger now st L = st := by
  unfold processLedger
  rcases h with h | h <;> rw [h]
  simp

/-- C10, witness: processing the zero-sequence ledger on a fresh engine
is a no-op. -/
theorem claim10_witness :
    (numOr c10Ledger.ledger_index c10Ledger.seqNum = some 0 ∨
      numOr c10Ledger.ledger_index c10Ledger.seqNum = none) ∧
    processLedger 77 initState c10Ledger = initState :=
  ⟨Or.inl (by decide),
   claim10_zero_seq_rejected 77 initState c10Ledger (Or.inl (by decide))⟩

/-! ## Lemmas: processLedger case analysis -/

theorem processLedger_of_invalid {L : RawLedger} (now : Int)
    (st : EngineState) (h : validSeq L = none) :
    processLedger now st L = st := by
  unfold processLedger
  unfold validSeq at h
  rcases hn : numOr L.ledger_index L.seqNum with _ | s
  · rfl
  · rw [hn] at h
    have h' : (if s = 0 then none else some s : Option Nat) = none := h
    show (if s = 0 then st
      else if st.ledgers.any (fun l => l.seq == s) then st
      else processLedgerAccepted now st L s) = st
    have h0 : s = 0 := by
      by_cases h0 : s = 0
      · exact h0
      · rw [if_neg h0] at h'
        cases h'
    rw [if_pos h0]

theorem processLedger_of_dup {L : RawLedger} {s : Nat} (now : Int)
    (st : EngineState) (h : validSeq L = some s)
    (hdup : st.ledgers.any (fun l => l.seq == s) = true) :
    processLedger now st L = st := by
  unfold processLedger
  unfold validSeq at h
  rcases hn : numOr L.ledger_index L.seqNum with _ | s'
  · rfl
  · rw [hn] at h
    have h' : (if s' = 0 then none else some s' : Option Nat) = some s := h
    show (if s' = 0 then st
      else if st.ledgers.any (fun l => l.seq == s') then st
      else processLedgerAccepted now st L s') = st
    by_cases h0 : s' = 0
    · rw [if_pos h0]
    · rw [if_neg h0] at h'
      injection h' with h'
      subst h'
      rw [if_neg h0, if_pos hdup]

theorem processLedger_of_fresh {L : RawLedger} {s : Nat} (now : Int)
    (st : EngineState) (h : validSeq L = some s)
    (hdup : st.ledgers.any (fun l => l.seq == s) = false) :
    processLedger now st L = processLedgerAccepted now st L s := by
  unfold processLedger
  unfold validSeq at h
  rcases hn : numOr L.ledger_index L.seqNum with _ | s'
  · rw [hn] at h
    have h' : (none : Option Nat) = some s := h
    cases h'
  · rw [hn] at h
    have h' : (if s' = 0 then none else some s' : Option Nat) = some s := h
    show (if s' = 0 then st
      else if st.ledgers.any (fun l => l.seq == s') then st
      else processLedgerAccepted now st L s')
      = processLedgerAccepted now st L s
    by_cases h0 : s' = 0
    · rw [if_pos h0] at h'
      cases h'
    · rw [if_neg h0] at h'
      injection h' with h'
      subst h'
      rw [if_neg h0, if_neg (by simp [hdup])]

theorem processLedgerAccepted_ledgers (now : Int) (st : EngineState)
    (L : RawLedger) (s : Nat) :
    (processLedgerAccepted now st L s).ledgers =
      trimLedgers (sortBySeq (st.ledgers ++ [newLedgerOf now L s])) := by
  simp only [processLedgerAccepted]
  split <;> rfl

theorem processLedgerAccepted_firstSeen (now : Int) (st : EngineState)
    (L : RawLedger) (s : Nat) :
    (processLedgerAccepted now st L s).firstSeen =
      updateFirstSeen st.firstSeen (dayOfMs (closeTimeOf now L))
        (processedTxns L) := by
  simp only [processLedgerAccepted]
  split <;> rfl

theorem processLedgerAccepted_recent (now : Int) (st : EngineState)
    (L : RawLedger) (s : Nat) :
    (processLedgerAccepted now st L s).recentTxnTimes =
      updatedRecent now st L := by
  simp only [processLedgerAccepted]
  split <;> rfl

theorem processLedgerAccepted_lastTime (now : Int) (st : EngineState)
    (L : RawLedger) (s : Nat) :
    (processLedgerAccepted now st L s).lastLedgerTime =
      some (closeTimeOf now L) := by
  simp only [processLedgerAccepted]
  split <;> rfl

/-! ## Claim C9 -/

theorem objGet_statsfold_ne {ds : DayMap} {k : Day}
    (h : ∀ p ∈ ds, p.1 ≠ k) (init : List (Day × Nat)) :
    objGet (ds.foldl (fun m p => objSet m p.1 p.2.txCount) init) k
      = objGet init k := by
  induction ds generalizing init with
  | nil => rfl
  | cons p rest ih =>
      have hne : k ≠ p.1 :=
        fun hk => h p (List.mem_cons_self p rest) (Eq.symm hk)
      rw [List.foldl_cons,
        ih (fun q hq => h q (List.mem_cons_of_mem p hq)),
        objGet_objSet_ne init _ hne]

theorem objGet_ledgermaxfold_ne {ls : List Ledger} {k : Day}
    (h : ∀ l ∈ ls, dayOfMs l.close_time ≠ k)
    (init : List (Day × Nat)) :
    objGet (ls.foldl
      (fun m l => objSet m (dayOfMs l.close_time)
        (max ((objGet m (dayOfMs l.close_time)).getD 0) l.txn_count))
      init) k = objGet init k := by
  induction ls generalizing init with
  | nil => rfl
  | cons l rest ih =>
      have hne : k ≠ dayOfMs l.close_time :=
        fun hk => h l (List.mem_cons_self l rest) (Eq.symm hk)
      rw [List.foldl_cons,
        ih (fun q hq => h q (List.mem_cons_of_mem l hq)),
        objGet_objSet_ne init _ hne]

theorem mem_objKeys_livetotalsfold {ls : List Ledger} {k : Day}
    (init : List (Day × Nat))
    (h : k ∈ objKeys (ls.foldl
      (fun m l => objSet m (dayOfMs l.close_time)
        ((objGet m (dayOfMs l.close_time)).getD 0 + l.txn_count))
      init)) :
    k ∈ objKeys init ∨ ∃ l ∈ ls, dayOfMs l.close_time = k := by
  induction ls generalizing init with
  | nil => exact Or.inl h
  | cons l rest ih =>
      rw [List.foldl_cons] at h
      rcases ih _ h with h2 | h2
      · by_cases hk : dayOfMs l.close_time = k
        · exact Or.inr ⟨l, List.mem_cons_self l rest, hk⟩
        · left
          rcases hs : objGet init (dayOfMs l.close_time) with _ | v
          · rw [objKeys_objSet_of_get_none hs] at h2
            rcases List.mem_append.mp h2 with h3 | h3
            · exact h3
            · have h4 : k = dayOfMs l.close_time := by
                simpa using h3
              exact absurd h4.symm hk
          · rw [objKeys_objSet_of_get_some (by simp [hs])] at h2
            exact h2
      · obtain ⟨l', hl', hk⟩ := h2
        exact Or.inr ⟨l', List.mem_cons_of_mem l hl', hk⟩

theorem objGet_pairmaxfold_ne {lt : List (Day × Nat)} {k : Day}
    (h : ∀ p ∈ lt, p.1 ≠ k) (init : List (Day × Nat)) :
    objGet (lt.foldl
      (fun m p => objSet m p.1 (max ((objGet m p.1).getD 0) p.2))
      init) k = objGet init k := by
  induction lt generalizing init with
  | nil => rfl
  | cons p rest ih =>
      have hne : k ≠ p.1 :=
        fun hk => h p (List.mem_cons_self p rest) (Eq.symm hk)
      rw [List.foldl_cons,
        ih (fun q hq => h q (List.mem_cons_of_mem p hq)),
        objGet_objSet_ne init _ hne]

theorem txVolumeMerged_eq (st : EngineState) : txVolumeMerged st =
    (st.ledgers.foldl
      (fun m l => objSet m (dayOfMs l.close_time)
        ((objGet m (dayOfMs l.close_time)).getD 0 + l.txn_count))
      []).foldl
      (fun m p => objSet m p.1 (max ((objGet m p.1).getD 0) p.2))
      (st.ledgers.foldl
        (fun m l => objSet m (dayOfMs l.close_time)
          (max ((objGet m (dayOfMs l.close_time)).getD 0) l.txn_count))
        (st.dailyStats.foldl (fun m p => objSet m p.1 p.2.txCount) [])) :=
  rfl

theorem objGet_txVolumeMerged_none {st : EngineState} {day : Day}
    (hds : objGet st.dailyStats day = none)
    (hld : ∀ l ∈ st.ledgers, dayOfMs l.close_time ≠ day) :
    objGet (txVolumeMerged st) day = none := by
  rw [txVolumeMerged_eq]
  rw [objGet_pairmaxfold_ne ?_ _]
  · rw [objGet_ledgermaxfold_ne hld _, objGet_statsfold_ne ?_ []]
    · rfl
    · intro p hp hpk
      exact (objGet_eq_none_iff.mp hds) (hpk ▸ List.mem_map_of_mem _ hp)
  · intro p hp hpk
    have hmem : p.1 ∈ objKeys (st.ledgers.foldl
        (fun m l => objSet m (dayOfMs l.close_time)
          ((objGet m (dayOfMs l.close_time)).getD 0 + l.txn_count))
        []) := List.mem_map_of_mem _ hp
    rcases mem_objKeys_livetotalsfold [] hmem with h3 | h3
    · simp [objKeys] at h3
    · obtain ⟨l, hl, hk⟩ := h3
      exact hld l hl (by rw [hk, hpk])

/-- **C9**.  For every engine state and wall clock, `getTxVolumeHistory`
returns exactly 7 entries covering the 7 consecutive UTC calendar days
ending today (today-6 through today, ascending), and reports count 0 for
any of those days that has neither a persisted `dailyStats` entry nor a
stored ledger — a gap in the data never shortens or shifts the series. -/
theorem claim9_txvolume_seven_days (now : Int) (st : EngineState) :
    (getTxVolumeHistory now st).length = 7 ∧
    (∀ i : Nat, i < 7 → ((getTxVolumeHistory now st).getD i (0, 0)).1
      = dayOfMs now - 6 + (i : Int)) ∧
    (∀ i : Nat, i < 7 →
      objGet st.dailyStats (dayOfMs now - 6 + (i : Int)) = none →
      (∀ l ∈ st.ledgers,
        dayOfMs l.close_time ≠ dayOfMs now - 6 + (i : Int)) →
      ((getTxVolumeHistory now st).getD i (0, 0)).2 = 0) := by
  have hgetD : ∀ (f : Nat → Day × Nat) (i : Nat), i < 7 →
      (((List.range 7).map f).getD i (0, 0)) = f i := by
    intro f i hi
    rw [List.getD_eq_getElem?_getD, List.getElem?_map, List.getElem?_range hi]
    rfl
  have hunfold : getTxVolumeHistory now st = (List.range 7).map
      (fun (i : Nat) => (dayOfMs now - 6 + (i : Int),
        (objGet (txVolumeMerged st) (dayOfMs now - 6 + (i : Int))).getD 0))
    := rfl
  refine ⟨?_, ?_, ?_⟩
  · rw [hunfold, List.length_map, List.length_range]
  · intro i hi
    rw [hunfold, hgetD _ i hi]
  · intro i hi hds hld
    rw [hunfold, hgetD _ i hi]
    show (objGet (txVolumeMerged st) (dayOfMs now - 6 + (i : Int))).getD 0
      = 0
    rw [objGet_txVolumeMerged_none hds hld]
    rfl

/-- C9, witness: on a fresh engine at wall clock 0 the series still has
7 entries, starts at day -6, and reports 0 for the first day. -/
theorem claim9_witness :
    (getTxVolumeHistory 0 initState).length = 7 ∧
    ((getTxVolumeHistory 0 initState).getD 0 (0, 0)).1
      = dayOfMs 0 - 6 + 0 ∧
    objGet initState.dailyStats (dayOfMs 0 - 6 + 0) = none ∧
    ((getTxVolumeHistory 0 initState).getD 0 (0, 0)).2 = 0 :=
  ⟨(claim9_txvolume_seven_days 0 initState).1,
   (claim9_txvolume_seven_days 0 initState).2.1 0 (by decide),
   by decide,
   (claim9_txvolume_seven_days 0 initState).2.2 0 (by decide) (by decide)
     (by decide)⟩

/-! ## Claim C6 -/

theorem objGet_updateFirstSeen_of_some {fs : List (String × Day)}
    {w : String} {d0 : Day} (day : Day) (processed : List Txn)
    (h : objGet fs w = some d0) :
    objGet (updateFirstSeen fs day processed) w = some d0 := by
  unfold updateFirstSeen
  induction processed generalizing fs with
  | nil => exact h
  | cons tx rest ih =>
      rw [List.foldl_cons]
      by_cases hc : tx.account ≠ "" ∧ objGet fs tx.account = none
      · rw [if_pos hc]
        apply ih
        have hne : w ≠ tx.account := by
          intro hw
          rw [hw, hc.2] at h
          cases h
        rw [objGet_objSet_ne fs day hne]
        exact h
      · rw [if_neg hc]
        exact ih h

theorem processLedger_firstSeen_preserved (now : Int) (st : EngineState)
    (L : RawLedger) {w : String} {d0 : Day}
    (h : objGet st.firstSeen w = some d0) :
    objGet (processLedger now st L).firstSeen w = some d0 := by
  rcases hv : validSeq L with _ | s
  · rw [processLedger_of_invalid now st hv]
    exact h
  · cases hdup : st.ledgers.any (fun l => l.seq == s) with
    | false =>
        rw [processLedger_of_fresh now st hv hdup,
          processLedgerAccepted_firstSeen]
        exact objGet_updateFirstSeen_of_some _ _ h
    | true =>
        rw [processLedger_of_dup now st hv hdup]
        exact h

theorem loadRemoteStats_firstSeen_preserved (today : Day)
    (st : EngineState) (r : RemoteSnapshot) {w : String} {d0 : Day}
    (h : objGet st.firstSeen w = some d0) :
    objGet (loadRemoteStats today st r).firstSeen w = some d0 := by
  have hfs : (loadRemoteStats today st r).firstSeen
      = mergeFirstSeen st.firstSeen r.firstSeen := rfl
  rw [hfs]
  exact objGet_mergeFirstSeen_of_some _ h

/-- **C6** (amended).  The first-seen index is append-only with
*first-write-wins* semantics: once a wallet's entry is set, no later
`processLedger`, `loadRemoteStats` or `saveDailyStats` call ever
overwrites it.  The original claim additionally asserted that the stored
day is the *earliest* observation day across all sources
(earliest-wins); that part is false — the entry records whichever source
observed the wallet first in merge order, and an earlier remote
first-seen day arriving later does not replace it (see the
counterexample). -/
theorem claim6_firstseen_first_write_wins (st : EngineState) (w : String)
    (d0 : Day) (h : objGet st.firstSeen w = some d0) :
    (∀ now L, objGet (processLedger now st L).firstSeen w = some d0) ∧
    (∀ today r, objGet (loadRemoteStats today st r).firstSeen w = some d0) ∧
    objGet (saveDailyStats st).firstSeen w = some d0 :=
  ⟨fun now L => processLedger_firstSeen_preserved now st L h,
   fun today r => loadRemoteStats_firstSeen_preserved today st r h,
   h⟩

/-- C6, counterexample.  Live ingestion first sees wallet `w` on day
10957; a later remote merge carries the earlier first-seen day 10000, yet
the stored entry remains 10957.  The index is first-write-wins, not
earliest-wins, falsifying the claim that the stored day is the earliest
observation day across all sources. -/
theorem claim6_counterexample :
    objGet (processLedger 0 initState c6Ledger).firstSeen "w"
      = some 10957 ∧
    objGet c6Remote.firstSeen "w" = some 10000 ∧
    (10000 : Int) < 10957 ∧
    objGet (loadRemoteStats 10957 (processLedger 0 initState c6Ledger)
        c6Remote).firstSeen "w" = some 10957 := by
  refine ⟨by decide, by decide, by decide, ?_⟩
  decide

/-- C6, witness: the amended theorem applied to a state that already maps
`w` to day 5; both operations keep the entry. -/
theorem claim6_witness :
    objGet ({ initState with firstSeen := [("w", 5)] }
        : EngineState).firstSeen "w" = some 5 ∧
    objGet (processLedger 3 { initState with firstSeen := [("w", 5)] }
        c6Ledger).firstSeen "w" = some 5 ∧
    objGet (loadRemoteStats 9 { initState with firstSeen := [("w", 5)] }
        c6Remote).firstSeen "w" = some 5 :=
  ⟨by decide,
   (claim6_firstseen_first_write_wins _ "w" 5 (by decide)).1 3 c6Ledger,
   (claim6_firstseen_first_write_wins _ "w" 5 (by decide)).2.1 9 c6Remote⟩

/-! ## Claim C5 -/

theorem cohortFold_eq (sets : List (Day × List String)) (today : Day)
    (cohorts : List (Day × List String)) :
    ∀ acc : RetentionLists,
    cohorts.foldl (cohortStep sets today) acc =
      { matured3 := acc.matured3 ++
          ((cohorts.filter (fun p => p.2.length ≠ 0 ∧ 3 ≤ today - p.1)).map
            (fun p => retentionValue sets p.1 3 p.2)),
        matured7 := acc.matured7 ++
          ((cohorts.filter (fun p => p.2.length ≠ 0 ∧ 7 ≤ today - p.1)).map
            (fun p => retentionValue sets p.1 7 p.2)),
        matured30 := acc.matured30 ++
          ((cohorts.filter (fun p => p.2.length ≠ 0 ∧ 30 ≤ today - p.1)).map
            (fun p => retentionValue sets p.1 30 p.2)) } := by
  have hpos : (0 : Int) < DAY_MS := by
    unfold DAY_MS
    norm_num
  induction cohorts with
  | nil =>
      intro acc
      simp
  | cons p rest ih =>
      intro acc
      rw [List.foldl_cons, ih]
      simp only [cohortStep]
      have harith : today * DAY_MS - p.1 * DAY_MS
          = (today - p.1) * DAY_MS := by
        ring
      by_cases h0 : p.2.length = 0
      · have h0' : p.2 = [] := List.length_eq_zero.mp h0
        simp [List.filter_cons, h0, h0']
      · have h0' : ¬ p.2 = [] := fun he => h0 (by simp [he])
        by_cases h3 : (3 : Int) ≤ today - p.1
        · have hms3 : ¬ (today * DAY_MS - p.1 * DAY_MS < 3 * DAY_MS) := by
            rw [harith]
            exact not_lt.mpr ((mul_le_mul_right hpos).mpr h3)
          by_cases h7 : (7 : Int) ≤ today - p.1
          · have hms7 : 7 * DAY_MS ≤ today * DAY_MS - p.1 * DAY_MS := by
              rw [harith]
              exact (mul_le_mul_right hpos).mpr h7
            by_cases h30 : (30 : Int) ≤ today - p.1
            · have hms30 : 30 * DAY_MS ≤ today * DAY_MS - p.1 * DAY_MS := by
                rw [harith]
                exact (mul_le_mul_right hpos).mpr h30
              simp [List.filter_cons, h0, h0', h3, h7, h30, hms3, hms7,
                hms30]
            · have hms30 : ¬ 30 * DAY_MS ≤ today * DAY_MS - p.1 * DAY_MS
                  := by
                rw [harith]
                exact fun hc => h30 ((mul_le_mul_right hpos).mp hc)
              simp [List.filter_cons, h0, h0', h3, h7, h30, hms3, hms7,
                hms30]
          · have hms7 : ¬ 7 * DAY_MS ≤ today * DAY_MS - p.1 * DAY_MS := by
              rw [harith]
              exact fun hc => h7 ((mul_le_mul_right hpos).mp hc)
            have h30 : ¬ (30 : Int) ≤ today - p.1 :=
              fun hc => h7 (le_trans (by norm_num) hc)
            have hms30 : ¬ 30 * DAY_MS ≤ today * DAY_MS - p.1 * DAY_MS := by
              rw [harith]
              exact fun hc => h30 ((mul_le_mul_right hpos).mp hc)
            simp [List.filter_cons, h0, h0', h3, h7, h30, hms3, hms7,
              hms30]
        · have hms3 : today * DAY_MS - p.1 * DAY_MS < 3 * DAY_MS := by
            rw [harith]
            exact (mul_lt_mul_right hpos).mpr (not_le.mp h3)
          have h7 : ¬ (7 : Int) ≤ today - p.1 :=
            fun hc => h3 (le_trans (by norm_num) hc)
          have h30 : ¬ (30 : Int) ≤ today - p.1 :=
            fun hc => h3 (le_trans (by norm_num) hc)
          simp [List.filter_cons, h0, h0', h3, h7, h30, hms3]

/-- **C5**.  Cohort maturity gating of `getCohortRetention`: for every
engine state and current day, the reported 3/7/30-day figures are the
arithmetic means over exactly the non-empty cohorts whose first-seen day
is at least 3/7/30 days before today (`today − cohortDay ≥ H`), with
`none` (the `'--'` sentinel) when no cohort is mature for a horizon.  In
particular a cohort first seen today (`today − cohortDay = 0`)
contributes to no horizon, a cohort first seen exactly 3 days ago
contributes to the 3-day average only, and immature cohorts are excluded
from a horizon's average entirely rather than being counted as 0%. -/
theorem claim5_cohort_maturity (st : EngineState) (today : Day) :
    getCohortRetention st today =
      { day3 := ratMean
          (((buildCohorts st.firstSeen).filter
            (fun p => p.2.length ≠ 0 ∧ 3 ≤ today - p.1)).map
            (fun p => retentionValue (buildDayWalletSets st) p.1 3 p.2)),
        day7 := ratMean
          (((buildCohorts st.firstSeen).filter
            (fun p => p.2.length ≠ 0 ∧ 7 ≤ today - p.1)).map
            (fun p => retentionValue (buildDayWalletSets st) p.1 7 p.2)),
        day30 := ratMean
          (((buildCohorts st.firstSeen).filter
            (fun p => p.2.length ≠ 0 ∧ 30 ≤ today - p.1)).map
            (fun p => retentionValue (buildDayWalletSets st) p.1 30 p.2)) }
    := by
  have hlists : cohortRetentionLists st today =
      { matured3 :=
          ((buildCohorts st.firstSeen).filter
            (fun p => p.2.length ≠ 0 ∧ 3 ≤ today - p.1)).map
            (fun p => retentionValue (buildDayWalletSets st) p.1 3 p.2),
        matured7 :=
          ((buildCohorts st.firstSeen).filter
            (fun p => p.2.length ≠ 0 ∧ 7 ≤ today - p.1)).map
            (fun p => retentionValue (buildDayWalletSets st) p.1 7 p.2),
        matured30 :=
          ((buildCohorts st.firstSeen).filter
            (fun p => p.2.length ≠ 0 ∧ 30 ≤ today - p.1)).map
            (fun p => retentionValue (buildDayWalletSets st) p.1 30 p.2) } := by
    have h := cohortFold_eq (buildDayWalletSets st) today
      (buildCohorts st.firstSeen) ⟨[], [], []⟩
    simpa using h
  show (⟨ratMean (cohortRetentionLists st today).matured3,
    ratMean (cohortRetentionLists st today).matured7,
    ratMean (cohortRetentionLists st today).matured30⟩ : RetentionOut) = _
  rw [hlists]

/-! ## Claim C4 -/

theorem foldl_add_shift (l : List Nat) (x : Nat) :
    l.foldl (· + ·) x = x + l.foldl (· + ·) 0 := by
  induction l generalizing x with
  | nil => simp
  | cons a l ih =>
      rw [List.foldl_cons, List.foldl_cons, ih (x + a), ih (0 + a)]
      omega

theorem windowVals_split (vals : List Nat) (i : Nat) {w1 w2 : Nat}
    (_h1 : 1 ≤ w1) (h : w1 ≤ w2) :
    ∃ extra, windowVals vals i w2 = extra ++ windowVals vals i w1 := by
  unfold windowVals
  have hc1 : min (i + 1) w1 ≤ min (i + 1) w2 := by
    omega
  refine ⟨(List.range' (i + 1 - min (i + 1) w2)
    (min (i + 1) w2 - min (i + 1) w1)).map (fun j => vals.getD j 0), ?_⟩
  rw [← List.map_append]
  congr 1
  have := List.range'_append (i + 1 - min (i + 1) w2)
    (min (i + 1) w2 - min (i + 1) w1) (min (i + 1) w1) 1
  rw [show i + 1 - min (i + 1) w2 + 1 * (min (i + 1) w2 - min (i + 1) w1)
      = i + 1 - min (i + 1) w1 by omega] at this
  rw [show min (i + 1) w1 + (min (i + 1) w2 - min (i + 1) w1)
      = min (i + 1) w2 by omega] at this
  exact this.symm

theorem windowVals_one (vals : List Nat) (i : Nat) :
    windowVals vals i 1 = [vals.getD i 0] := by
  unfold windowVals
  have h1 : min (i + 1) 1 = 1 := by
    omega
  rw [h1, show i + 1 - 1 = i by omega]
  rfl

theorem windowSum_le (vals : List Nat) (i : Nat) {w1 w2 : Nat}
    (h1 : 1 ≤ w1) (h : w1 ≤ w2) :
    (windowVals vals i w1).foldl (· + ·) 0
      ≤ (windowVals vals i w2).foldl (· + ·) 0 := by
  obtain ⟨extra, hsplit⟩ := windowVals_split vals i h1 h
  rw [hsplit, List.foldl_append,
    foldl_add_shift (windowVals vals i w1) (extra.foldl (· + ·) 0)]
  omega

theorem getD_le_windowSum (vals : List Nat) (i : Nat) {w : Nat}
    (hw : 1 ≤ w) :
    vals.getD i 0 ≤ (windowVals vals i w).foldl (· + ·) 0 := by
  obtain ⟨extra, hsplit⟩ := windowVals_split vals i (le_refl 1) hw
  rw [hsplit, windowVals_one, List.foldl_append, foldl_add_shift]
  simp

/-- C4, counterexample.  Exact wallet-identity sets are available for
every day of the window (both days carry `walletAddresses = ["w"]`), yet
the rolling 7-day figure reported for the second day is 2 — the *sum* of
the per-day counts — while the exact size of the union of the per-day
wallet sets is 1.  The rolling figure is never computed from the identity
sets. -/
theorem claim4_counterexample :
    objGet c4State.dailyStats 0 = some ⟨1, 1, some ["w"]⟩ ∧
    objGet c4State.dailyStats 1 = some ⟨1, 1, some ["w"]⟩ ∧
    getDailyActiveWalletsMulti c4State
      = [⟨0, 1, 1, 1⟩, ⟨1, 1, 2, 2⟩] ∧
    specWindowUnionSize [["w"], ["w"]] = 1 ∧
    ((getDailyActiveWalletsMulti c4State).getD 1 default).day7
      ≠ specWindowUnionSize [["w"], ["w"]] := by
  refine ⟨by decide, by decide, by decide, by decide, by decide⟩

/-- **C4** (amended).  The rolling figures of
`getDailyActiveWalletsMulti` are computed from per-day *counts* only,
never from the wallet-identity sets: for every engine state the reported
7-day figure is the sum of the per-day counts over the trailing (up to) 7
present days and the 30-day figure is the sum over the trailing (up to)
30 present days (upper-bound estimates that double-count wallets active
on several days).  The original claim — that the figures equal the exact
union size whenever identity sets are available for the whole window —
fails (see the counterexample). -/
theorem claim4_rolling_sums (st : EngineState) :
    getDailyActiveWalletsMulti st =
      ((List.range (sortKeys (objKeys (multiDayCounts st))).length).map
        (fun i =>
          { date := (sortKeys (objKeys (multiDayCounts st))).getD i 0,
            day1 := ((sortKeys (objKeys (multiDayCounts st))).map
              (fun d => (objGet (multiDayCounts st) d).getD 0)).getD i 0,
            day7 := (windowVals
              ((sortKeys (objKeys (multiDayCounts st))).map
                (fun d => (objGet (multiDayCounts st) d).getD 0)) i 7).foldl
              (· + ·) 0,
            day30 := (windowVals
              ((sortKeys (objKeys (multiDayCounts st))).map
                (fun d => (objGet (multiDayCounts st) d).getD 0)) i
              30).foldl (· + ·) 0 })).drop
        ((sortKeys (objKeys (multiDayCounts st))).length - 30) := by
  have hentries : multiEntries st =
      (List.range (sortKeys (objKeys (multiDayCounts st))).length).map
        (fun i =>
          { date := (sortKeys (objKeys (multiDayCounts st))).getD i 0,
            day1 := ((sortKeys (objKeys (multiDayCounts st))).map
              (fun d => (objGet (multiDayCounts st) d).getD 0)).getD i 0,
            day7 := (windowVals
              ((sortKeys (objKeys (multiDayCounts st))).map
                (fun d => (objGet (multiDayCounts st) d).getD 0)) i 7).foldl
              (· + ·) 0,
            day30 := (windowVals
              ((sortKeys (objKeys (multiDayCounts st))).map
                (fun d => (objGet (multiDayCounts st) d).getD 0)) i
              30).foldl (· + ·) 0 }) := by
    unfold multiEntries
    apply List.map_congr_left
    intro i _
    set vals := (sortKeys (objKeys (multiDayCounts st))).map
      (fun d => (objGet (multiDayCounts st) d).getD 0) with hvals
    have h17 : vals.getD i 0 ≤ (windowVals vals i 7).foldl (· + ·) 0 :=
      getD_le_windowSum vals i (by omega)
    have h730 : (windowVals vals i 7).foldl (· + ·) 0
        ≤ (windowVals vals i 30).foldl (· + ·) 0 :=
      windowSum_le vals i (by omega) (by omega)
    have hmin : min ((windowVals vals i 7).foldl (· + ·) 0)
        ((windowVals vals i 7).foldl (· + ·) 0)
        = (windowVals vals i 7).foldl (· + ·) 0 := min_self _
    have hmax7 : max (vals.getD i 0)
        ((windowVals vals i 7).foldl (· + ·) 0)
        = (windowVals vals i 7).foldl (· + ·) 0 := max_eq_right h17
    have hmax30 : max ((windowVals vals i 7).foldl (· + ·) 0)
        ((windowVals vals i 30).foldl (· + ·) 0)
        = (windowVals vals i 30).foldl (· + ·) 0 := max_eq_right h730
    simp only [hmin, hmax7, hmax30]
  show (multiEntries st).drop ((multiEntries st).length - 30) = _
  rw [hentries]
  rw [List.length_map, List.length_range]

/-! ## Claim C8 -/

/-- **C8**.  Arrival-order independence of the window queries: for three
ledgers with distinct sequences 3, 4, 5 and present (nonzero) close
times, ingesting them in arrival order [5, 3, 4] produces the same
stored-ledger list as ingesting them in sequence order [3, 4, 5] —
regardless of the wall-clock readings — and therefore identical results
from `getAllTransactions` (allTransactionsSince) and from the per-day
grouping of the stored ledgers (`computeLiveDailyRollups`), because the
store is re-sorted by sequence after every insertion. -/
theorem claim8_order_independence
    (t3 t4 t5 : Int) (h3 : t3 ≠ 0) (h4 : t4 ≠ 0) (h5 : t5 ≠ 0)
    (x3 x4 x5 : List RawTx) (n1 n2 n3 n4 n5 n6 now sinceMs : Int) :
    (ingestAll initState
        [(n1, c8Raw 5 t5 x5), (n2, c8Raw 3 t3 x3),
         (n3, c8Raw 4 t4 x4)]).ledgers
      = (ingestAll initState
        [(n4, c8Raw 3 t3 x3), (n5, c8Raw 4 t4 x4),
         (n6, c8Raw 5 t5 x5)]).ledgers ∧
    getAllTransactions now
        (ingestAll initState
          [(n1, c8Raw 5 t5 x5), (n2, c8Raw 3 t3 x3),
           (n3, c8Raw 4 t4 x4)]) sinceMs
      = getAllTransactions now
        (ingestAll initState
          [(n4, c8Raw 3 t3 x3), (n5, c8Raw 4 t4 x4),
           (n6, c8Raw 5 t5 x5)]) sinceMs ∧
    computeLiveDailyRollups
        (ingestAll initState
          [(n1, c8Raw 5 t5 x5), (n2, c8Raw 3 t3 x3),
           (n3, c8Raw 4 t4 x4)]).ledgers
      = computeLiveDailyRollups
        (ingestAll initState
          [(n4, c8Raw 3 t3 x3), (n5, c8Raw 4 t4 x4),
           (n6, c8Raw 5 t5 x5)]).ledgers := by
  have hled : (ingestAll initState
        [(n1, c8Raw 5 t5 x5), (n2, c8Raw 3 t3 x3),
         (n3, c8Raw 4 t4 x4)]).ledgers
      = (ingestAll initState
        [(n4, c8Raw 3 t3 x3), (n5, c8Raw 4 t4 x4),
         (n6, c8Raw 5 t5 x5)]).ledgers := by
    simp [ingestAll, processLedger, processLedgerAccepted, numOr, c8Raw,
      newLedgerOf, closeTimeOf, processedTxns, sortBySeq, insertLedger,
      trimLedgers, MAX_LEDGERS, initState, updatedRecent, saveDailyStats,
      h3, h4, h5]
  refine ⟨hled, ?_, ?_⟩
  · unfold getAllTransactions
    rw [hled]
  · rw [hled]

theorem claim8_witness :
    ((ingestAll initState
        [(0, c8Raw 5 3 []), (0, c8Raw 3 1 []), (0, c8Raw 4 2 [])]).ledgers
      = (ingestAll initState
        [(0, c8Raw 3 1 []), (0, c8Raw 4 2 []),
         (0, c8Raw 5 3 [])]).ledgers ∧
    getAllTransactions 0
        (ingestAll initState
          [(0, c8Raw 5 3 []), (0, c8Raw 3 1 []), (0, c8Raw 4 2 [])]) 0
      = getAllTransactions 0
        (ingestAll initState
          [(0, c8Raw 3 1 []), (0, c8Raw 4 2 []), (0, c8Raw 5 3 [])]) 0 ∧
    computeLiveDailyRollups
        (ingestAll initState
          [(0, c8Raw 5 3 []), (0, c8Raw 3 1 []),
           (0, c8Raw 4 2 [])]).ledgers
      = computeLiveDailyRollups
        (ingestAll initState
          [(0, c8Raw 3 1 []), (0, c8Raw 4 2 []),
           (0, c8Raw 5 3 [])]).ledgers) :=
  claim8_order_independence 1 2 3 (by decide) (by decide) (by decide)
    [] [] [] 0 0 0 0 0 0 0 0

/-! ## Lemmas: the ledger sort and trim -/

theorem insertLedger_perm (a : Ledger) (l : List Ledger) :
    insertLedger a l ~ a :: l := by
  induction l with
  | nil => exact List.Perm.refl _
  | cons b l ih =>
      by_cases h : a.seq ≤ b.seq
      · simp [insertLedger, h]
      · simp only [insertLedger, if_neg h]
        exact (ih.cons b).trans (List.Perm.swap a b l)

theorem sortBySeq_perm (l : List Ledger) : sortBySeq l ~ l := by
  induction l with
  | nil => exact List.Perm.refl _
  | cons a l ih => exact (insertLedger_perm a (sortBySeq l)).trans (ih.cons a)

theorem sortBySeq_length (l : List Ledger) :
    (sortBySeq l).length = l.length :=
  (sortBySeq_perm l).length_eq

theorem insertLedger_of_le {a : Ledger} {l : List Ledger}
    (h : ∀ b ∈ l, a.seq ≤ b.seq) : insertLedger a l = a :: l := by
  cases l with
  | nil => rfl
  | cons b rest =>
      simp only [insertLedger]
      rw [if_pos (h b (List.mem_cons_self b rest))]

theorem sortBySeq_of_sorted {l : List Ledger}
    (h : l.Pairwise (fun x y => x.seq ≤ y.seq)) : sortBySeq l = l := by
  induction l with
  | nil => rfl
  | cons a rest ih =>
      rcases List.pairwise_cons.1 h with ⟨ha, hrest⟩
      show insertLedger a (sortBySeq rest) = a :: rest
      rw [ih hrest, insertLedger_of_le ha]

theorem sortBySeq_append_lt {x : Ledger} :
    ∀ (l : List Ledger), (∀ b ∈ l, x.seq < b.seq) →
      sortBySeq (l ++ [x]) = x :: sortBySeq l := by
  intro l
  induction l with
  | nil => intro _; rfl
  | cons a rest ih =>
      intro h
      show insertLedger a (sortBySeq (rest ++ [x]))
        = x :: insertLedger a (sortBySeq rest)
      rw [ih (fun b hb => h b (List.mem_cons_of_mem a hb))]
      have hax : ¬ a.seq ≤ x.seq := by
        have := h a (List.mem_cons_self a rest)
        omega
      simp only [insertLedger]
      rw [if_neg hax]

theorem trimLedgers_of_small {l : List Ledger}
    (h : l.length ≤ MAX_LEDGERS) : trimLedgers l = l := by
  unfold trimLedgers
  rw [if_neg]
  omega

theorem pairwise_le_range' (n : Nat) :
    ∀ s, (List.range' s n).Pairwise (fun a b => a ≤ b) := by
  induction n with
  | zero => intro s; simp
  | succ n ih =>
      intro s
      rw [List.range'_succ]
      exact List.Pairwise.cons
        (fun m hm => by
          have h := List.mem_range'_1.1 hm
          omega)
        (ih (s + 1))

theorem updatedRecent_of_none {st : EngineState}
    (h : st.lastLedgerTime = none) (now : Int) (L : RawLedger) :
    updatedRecent now st L = st.recentTxnTimes := by
  unfold updatedRecent
  rw [h]

theorem updatedRecent_of_some {st : EngineState} {last : Int}
    (h : st.lastLedgerTime = some last) (now : Int) (L : RawLedger) :
    updatedRecent now st L =
      (let appended := st.recentTxnTimes ++
        [⟨(((closeTimeOf now L - last : Int) : Rat) / 1000),
          (processedTxns L).length⟩]
      if 10 < appended.length then appended.drop 1 else appended) := by
  unfold updatedRecent
  rw [h]

/-! ## Claim C3 -/

theorem c3Big_pairwise : c3Big.Pairwise (fun a b => a.seq ≤ b.seq) := by
  unfold c3Big
  rw [List.pairwise_map]
  exact (pairwise_le_range' MAX_LEDGERS 2).imp (fun hab => hab)

theorem c3Big_seq_lt : ∀ b ∈ c3Big, (newLedgerOf 0 c3Raw 1).seq < b.seq := by
  intro b hb
  rcases List.mem_map.1 hb with ⟨i, hi, rfl⟩
  have h2 := List.mem_range'_1.1 hi
  show 1 < i
  omega

theorem c3Big_fresh : c3Big.any (fun l => l.seq == 1) = false := by
  rw [List.any_eq_false]
  intro x hx
  rcases List.mem_map.1 hx with ⟨i, hi, rfl⟩
  have h2 := List.mem_range'_1.1 hi
  show ¬ ((c3mk i).seq == 1) = true
  simp only [c3mk, beq_iff_eq]
  omega

theorem c3Big_length : c3Big.length = MAX_LEDGERS := by
  simp [c3Big]

theorem c3_first_ledgers :
    (processLedgerAccepted 0 c3State c3Raw 1).ledgers = c3Big := by
  rw [processLedgerAccepted_ledgers]
  show trimLedgers (sortBySeq (c3Big ++ [newLedgerOf 0 c3Raw 1])) = c3Big
  rw [sortBySeq_append_lt c3Big c3Big_seq_lt, sortBySeq_of_sorted c3Big_pairwise]
  unfold trimLedgers
  rw [if_pos (by simp [c3Big_length])]
  rw [show (newLedgerOf 0 c3Raw 1 :: c3Big).length - MAX_LEDGERS = 1 by
    simp [c3Big_length]]
  rfl

/-- C3, counterexample.  With a full store (`MAX_LEDGERS` ledgers,
sequences 2 and above) and an incoming ledger of sequence 1, the first
`processLedger` call evicts the new ledger immediately (it sorts to the
front and `slice(-MAX_LEDGERS)` drops it) yet still sets
`lastLedgerTime`; the second call with the same ledger passes the
duplicate check again (the ledger is no longer stored) and this time
appends an interval sample, so the state after two calls differs from
the state after one: re-delivery is NOT a no-op. -/
theorem claim3_counterexample :
    processLedger 0 (processLedger 0 c3State c3Raw) c3Raw
      ≠ processLedger 0 c3State c3Raw := by
  have hv : validSeq c3Raw = some 1 := rfl
  have h1 : processLedger 0 c3State c3Raw
      = processLedgerAccepted 0 c3State c3Raw 1 :=
    processLedger_of_fresh 0 c3State hv c3Big_fresh
  have hrec1 : (processLedgerAccepted 0 c3State c3Raw 1).recentTxnTimes
      = [] := by
    rw [processLedgerAccepted_recent, updatedRecent_of_none rfl]
    rfl
  have hfresh2 : (processLedgerAccepted 0 c3State c3Raw
      1).ledgers.any (fun l => l.seq == 1) = false := by
    rw [c3_first_ledgers]
    exact c3Big_fresh
  have h2 : processLedger 0 (processLedgerAccepted 0 c3State c3Raw 1) c3Raw
      = processLedgerAccepted 0 (processLedgerAccepted 0 c3State c3Raw 1)
          c3Raw 1 :=
    processLedger_of_fresh 0 _ hv hfresh2
  have hrec2 : (processLedgerAccepted 0
      (processLedgerAccepted 0 c3State c3Raw 1) c3Raw 1).recentTxnTimes
      = [⟨0, 0⟩] := by
    rw [processLedgerAccepted_recent,
      updatedRecent_of_some (processLedgerAccepted_lastTime 0 c3State c3Raw 1),
      hrec1]
    norm_num [processedTxns, c3Raw]
  intro heq
  have hc := congrArg EngineState.recentTxnTimes heq
  rw [h1, h2, hrec2, hrec1] at hc
  exact List.cons_ne_nil _ _ hc

/-- **C3** (amended).  Below capacity, re-delivery is a no-op: whenever
the store holds fewer than `MAX_LEDGERS` ledgers, calling `processLedger`
twice with the same ledger (even at different wall-clock readings) leaves
the engine in exactly the state of calling it once — the second delivery
is caught by the duplicate-sequence check.  At capacity the claim fails
(see the counterexample): a just-inserted lowest-sequence ledger is
evicted immediately, so its re-delivery is accepted again and mutates the
interval samples. -/
theorem claim3_idempotent_below_capacity (now₁ now₂ : Int)
    (st : EngineState) (L : RawLedger)
    (hcap : st.ledgers.length < MAX_LEDGERS) :
    processLedger now₂ (processLedger now₁ st L) L
      = processLedger now₁ st L := by
  rcases hv : validSeq L with _ | s
  · rw [processLedger_of_invalid now₁ st hv, processLedger_of_invalid now₂ st hv]
  · cases hd : st.ledgers.any (fun l => l.seq == s) with
    | true =>
        rw [processLedger_of_dup now₁ st hv hd,
          processLedger_of_dup now₂ st hv hd]
    | false =>
        rw [processLedger_of_fresh now₁ st hv hd]
        have hlen : (sortBySeq (st.ledgers
            ++ [newLedgerOf now₁ L s])).length ≤ MAX_LEDGERS := by
          rw [sortBySeq_length, List.length_append]
          simp only [List.length_singleton]
          omega
        have hmem : newLedgerOf now₁ L s
            ∈ sortBySeq (st.ledgers ++ [newLedgerOf now₁ L s]) :=
          (sortBySeq_perm _).mem_iff.2 (by simp)
        have hd2 : (processLedgerAccepted now₁ st L
            s).ledgers.any (fun l => l.seq == s) = true := by
          rw [processLedgerAccepted_ledgers, trimLedgers_of_small hlen]
          exact List.any_eq_true.2 ⟨_, hmem, by simp [newLedgerOf]⟩
        exact processLedger_of_dup now₂ _ hv hd2

theorem claim3_witness :
    initState.ledgers.length < MAX_LEDGERS ∧
    processLedger 0 (processLedger 0 initState c3Raw) c3Raw
      = processLedger 0 initState c3Raw :=
  ⟨by decide,
    claim3_idempotent_below_capacity 0 0 initState c3Raw (by decide)⟩

/-! ## Claim C7 -/

theorem insertLedger_sorted {l : List Ledger} (a : Ledger)
    (h : l.Pairwise (fun x y => x.seq ≤ y.seq)) :
    (insertLedger a l).Pairwise (fun x y => x.seq ≤ y.seq) := by
  induction l with
  | nil => simp [insertLedger]
  | cons b rest ih =>
      rcases List.pairwise_cons.1 h with ⟨hb, hrest⟩
      by_cases hab : a.seq ≤ b.seq
      · simp only [insertLedger, if_pos hab]
        exact List.Pairwise.cons
          (fun t ht => by
            rcases List.mem_cons.1 ht with rfl | ht'
            · exact hab
            · exact le_trans hab (hb t ht'))
          h
      · simp only [insertLedger, if_neg hab]
        refine List.Pairwise.cons ?_ (ih hrest)
        intro t ht
        rcases List.mem_cons.1 ((insertLedger_perm a rest).mem_iff.1 ht)
          with rfl | ht'
        · omega
        · exact hb t ht'

theorem sortBySeq_sorted (l : List Ledger) :
    (sortBySeq l).Pairwise (fun x y => x.seq ≤ y.seq) := by
  induction l with
  | nil => exact List.Pairwise.nil
  | cons a rest ih => exact insertLedger_sorted a ih

theorem ledger_pairwise_lt_of_nodup {l : List Ledger}
    (hs : l.Pairwise (fun x y => x.seq ≤ y.seq))
    (hn : (l.map Ledger.seq).Nodup) :
    l.Pairwise (fun x y => x.seq < y.seq) := by
  have hne : l.Pairwise (fun x y => x.seq ≠ y.seq) := List.pairwise_map.1 hn
  exact (hs.and hne).imp (fun h => lt_of_le_of_ne h.1 h.2)

theorem storeInv_insert_lists
    {l : List Ledger} {seen : Finset Nat} {x : Ledger}
    (hpw : l.Pairwise (fun a b => a.seq < b.seq))
    (hlen : l.length = min MAX_LEDGERS seen.card)
    (hmem : ∀ q : Nat, q ∈ l.map Ledger.seq ↔
      q ∈ seen ∧ (seen.filter (fun r => q < r)).card < MAX_LEDGERS)
    (hs_not : x.seq ∉ l.map Ledger.seq) :
    (trimLedgers (sortBySeq (l ++ [x]))).Pairwise
        (fun a b => a.seq < b.seq) ∧
    (trimLedgers (sortBySeq (l ++ [x]))).length
        = min MAX_LEDGERS (insert x.seq seen).card ∧
    ∀ q : Nat, q ∈ (trimLedgers (sortBySeq (l ++ [x]))).map Ledger.seq ↔
      q ∈ insert x.seq seen ∧
        ((insert x.seq seen).filter (fun r => q < r)).card
          < MAX_LEDGERS := by
  have hMAXpos : 0 < MAX_LEDGERS := by norm_num [MAX_LEDGERS]
  set T := sortBySeq (l ++ [x]) with hT
  have hTperm : T ~ l ++ [x] := sortBySeq_perm _
  have hTlen : T.length = l.length + 1 := by
    rw [hT, sortBySeq_length, List.length_append]
    rfl
  have hmap_nodup : (l.map Ledger.seq).Nodup :=
    List.pairwise_map.2 (hpw.imp (fun hlt => Nat.ne_of_lt hlt))
  have hTmap_perm : T.map Ledger.seq ~ l.map Ledger.seq ++ [x.seq] := by
    have h := hTperm.map Ledger.seq
    simpa using h
  have hTmap_nodup : (T.map Ledger.seq).Nodup := by
    refine hTmap_perm.nodup_iff.2 ?_
    simp [List.nodup_append, hmap_nodup, hs_not]
  have hTpw : T.Pairwise (fun a b => a.seq < b.seq) :=
    ledger_pairwise_lt_of_nodup (sortBySeq_sorted _) hTmap_nodup
  have hmemT : ∀ q : Nat, q ∈ T.map Ledger.seq ↔
      q ∈ l.map Ledger.seq ∨ q = x.seq := by
    intro q
    rw [hTmap_perm.mem_iff]
    simp
  have hstored_seen : ∀ u ∈ l.map Ledger.seq, u ∈ seen :=
    fun u hu => ((hmem u).1 hu).1
  rcases Nat.lt_or_ge l.length MAX_LEDGERS with hcap | hcap
  · -- under capacity: nothing is evicted
    have hcard : seen.card = l.length := by omega
    have hmem_simple : ∀ q : Nat, q ∈ l.map Ledger.seq ↔ q ∈ seen := by
      intro q
      rw [hmem q]
      constructor
      · exact And.left
      · intro hq
        exact ⟨hq, lt_of_le_of_lt (Finset.card_filter_le _ _) (by omega)⟩
    have hs_seen : x.seq ∉ seen := fun hs => hs_not ((hmem_simple x.seq).2 hs)
    have hcard' : (insert x.seq seen).card = seen.card + 1 :=
      Finset.card_insert_of_not_mem hs_seen
    have htrim : trimLedgers T = T := trimLedgers_of_small (by omega)
    rw [htrim]
    refine ⟨hTpw, by omega, ?_⟩
    intro q
    rw [hmemT q]
    constructor
    · intro hq
      have hq_seen' : q ∈ insert x.seq seen := by
        rcases hq with hql | rfl
        · exact Finset.mem_insert_of_mem ((hmem_simple q).1 hql)
        · exact Finset.mem_insert_self _ _
      refine ⟨hq_seen', ?_⟩
      have hsub : (insert x.seq seen).filter (fun r => q < r)
          ⊆ (insert x.seq seen).erase q := by
        intro r hr
        rcases Finset.mem_filter.1 hr with ⟨hr1, hr2⟩
        exact Finset.mem_erase.2 ⟨by omega, hr1⟩
      have h1 := Finset.card_le_card hsub
      rw [Finset.card_erase_of_mem hq_seen', hcard'] at h1
      omega
    · rintro ⟨hq_seen', _⟩
      rcases Finset.mem_insert.1 hq_seen' with rfl | hq_seen
      · exact Or.inr rfl
      · exact Or.inl ((hmem_simple q).2 hq_seen)
  · -- at capacity: the lowest-sequence ledger is evicted
    have hlenMAX : l.length = MAX_LEDGERS := by omega
    have hcardge : MAX_LEDGERS ≤ seen.card := by omega
    have hTlen' : T.length = MAX_LEDGERS + 1 := by omega
    have hTne : T ≠ [] := by
      have hpos : 0 < T.length := by omega
      exact List.ne_nil_of_length_pos hpos
    obtain ⟨m, rest, hTeq⟩ := List.exists_cons_of_ne_nil hTne
    have hrest_len : rest.length = MAX_LEDGERS := by
      have h := hTlen'
      rw [hTeq] at h
      simp only [List.length_cons] at h
      omega
    have htrim : trimLedgers T = rest := by
      unfold trimLedgers
      rw [if_pos (by omega), show T.length - MAX_LEDGERS = 1 by omega, hTeq]
      rfl
    have hTpw' : (m :: rest).Pairwise (fun a b => a.seq < b.seq) := by
      rw [← hTeq]
      exact hTpw
    have hm_lt : ∀ t ∈ rest, m.seq < t.seq := (List.pairwise_cons.1 hTpw').1
    have hrest_pw : rest.Pairwise (fun a b => a.seq < b.seq) :=
      (List.pairwise_cons.1 hTpw').2
    have hrest_nodup : (rest.map Ledger.seq).Nodup := by
      have h := hTmap_nodup
      rw [hTeq] at h
      simp only [List.map_cons, List.nodup_cons] at h
      exact h.2
    have hcardrest : ((rest.map Ledger.seq).toFinset).card = MAX_LEDGERS := by
      rw [List.toFinset_card_of_nodup hrest_nodup, List.length_map, hrest_len]
    have hsT : x.seq ∈ T.map Ledger.seq := (hmemT x.seq).2 (Or.inr rfl)
    have hmseq : m.seq ∈ l.map Ledger.seq ∨ m.seq = x.seq :=
      (hmemT m.seq).1 (by
        rw [hTeq]
        exact List.mem_map_of_mem Ledger.seq (List.mem_cons_self m rest))
    have hstored_lt : ∀ r : Nat, r ∈ seen → r ∉ T.map Ledger.seq →
        ∀ u ∈ l.map Ledger.seq, r < u := by
      intro r hr hrT u hu
      have hr_not_l : r ∉ l.map Ledger.seq :=
        fun h' => hrT ((hmemT r).2 (Or.inl h'))
      have hr_filter : MAX_LEDGERS ≤ (seen.filter (fun t => r < t)).card := by
        by_contra hlt
        exact hr_not_l ((hmem r).2 ⟨hr, by omega⟩)
      have hu_filter : (seen.filter (fun t => u < t)).card < MAX_LEDGERS :=
        ((hmem u).1 hu).2
      by_contra hru
      have hur : u ≤ r := by omega
      have hsub : seen.filter (fun t => r < t)
          ⊆ seen.filter (fun t => u < t) := by
        intro t ht
        rcases Finset.mem_filter.1 ht with ⟨ht1, ht2⟩
        exact Finset.mem_filter.2 ⟨ht1, by omega⟩
      have := Finset.card_le_card hsub
      omega
    have hrest_seen' : ∀ t ∈ rest, t.seq ∈ insert x.seq seen := by
      intro t htmem
      have htT : t.seq ∈ T.map Ledger.seq := by
        rw [hTeq]
        exact List.mem_map_of_mem Ledger.seq
          (List.mem_cons_of_mem m htmem)
      rcases (hmemT t.seq).1 htT with hql | heq
      · exact Finset.mem_insert_of_mem (hstored_seen _ hql)
      · rw [heq]
        exact Finset.mem_insert_self _ _
    have hcard_ins : seen.card ≤ (insert x.seq seen).card :=
      Finset.card_le_card (Finset.subset_insert _ _)
    rw [htrim]
    refine ⟨hrest_pw, by omega, ?_⟩
    intro q
    constructor
    · intro hq
      obtain ⟨t, htmem, htq⟩ := List.mem_map.1 hq
      have hmq : m.seq < q := htq ▸ hm_lt t htmem
      have hqT : q ∈ T.map Ledger.seq := by
        rw [hTeq]
        simp only [List.map_cons, List.mem_cons]
        exact Or.inr hq
      have hq_seen' : q ∈ insert x.seq seen := by
        rcases (hmemT q).1 hqT with hql | rfl
        · exact Finset.mem_insert_of_mem (hstored_seen q hql)
        · exact Finset.mem_insert_self _ _
      refine ⟨hq_seen', ?_⟩
      have hsub : (insert x.seq seen).filter (fun r => q < r)
          ⊆ ((rest.map Ledger.seq).toFinset).erase q := by
        intro r hr
        rcases Finset.mem_filter.1 hr with ⟨hr1, hr2⟩
        have hrT : r ∈ T.map Ledger.seq := by
          by_contra hrT
          rcases Finset.mem_insert.1 hr1 with rfl | hr_seen
          · exact hrT hsT
          · have hall := hstored_lt r hr_seen hrT
            rcases (hmemT q).1 hqT with hql | rfl
            · have := hall q hql
              omega
            · rcases hmseq with hml | hms
              · have := hall m.seq hml
                omega
              · omega
        rw [hTeq] at hrT
        simp only [List.map_cons, List.mem_cons] at hrT
        rcases hrT with rfl | hrrest
        · omega
        · exact Finset.mem_erase.2 ⟨by omega, List.mem_toFinset.2 hrrest⟩
      have h1 := Finset.card_le_card hsub
      have h2 := Finset.card_erase_of_mem (List.mem_toFinset.2 hq)
      omega
    · rintro ⟨hq_seen', hq_filter⟩
      have hqT : q ∈ T.map Ledger.seq := by
        rcases Finset.mem_insert.1 hq_seen' with rfl | hq_seen
        · exact hsT
        · refine (hmemT q).2 (Or.inl ((hmem q).2 ⟨hq_seen, ?_⟩))
          have hsub : seen.filter (fun r => q < r)
              ⊆ (insert x.seq seen).filter (fun r => q < r) := by
            intro r hr
            rcases Finset.mem_filter.1 hr with ⟨hr1, hr2⟩
            exact Finset.mem_filter.2 ⟨Finset.mem_insert_of_mem hr1, hr2⟩
          have := Finset.card_le_card hsub
          omega
      have hqm : q ≠ m.seq := by
        rintro rfl
        have hsub : (rest.map Ledger.seq).toFinset
            ⊆ (insert x.seq seen).filter (fun r => m.seq < r) := by
          intro r hr
          obtain ⟨t, htmem, rfl⟩ := List.mem_map.1 (List.mem_toFinset.1 hr)
          exact Finset.mem_filter.2 ⟨hrest_seen' t htmem, hm_lt t htmem⟩
        have h1 := Finset.card_le_card hsub
        omega
      rw [hTeq] at hqT
      simp only [List.map_cons, List.mem_cons] at hqT
      rcases hqT with rfl | h
      · exact absurd rfl hqm
      · exact h

theorem storeInv_step {st : EngineState} {seen : Finset Nat}
    (h : StoreInv st seen) (now : Int) (L : RawLedger) :
    StoreInv (processLedger now st L) (eventInsert seen L) := by
  obtain ⟨hpw, hlen, hmem⟩ := h
  rcases hv : validSeq L with _ | s
  · rw [processLedger_of_invalid now st hv]
    unfold eventInsert
    rw [hv]
    exact ⟨hpw, hlen, hmem⟩
  · have hseen' : eventInsert seen L = insert s seen := by
      unfold eventInsert
      rw [hv]
    rw [hseen']
    cases hd : st.ledgers.any (fun l => l.seq == s) with
    | true =>
        rw [processLedger_of_dup now st hv hd]
        rcases List.any_eq_true.1 hd with ⟨t, ht, hts⟩
        have hs_mem : s ∈ st.ledgers.map Ledger.seq :=
          List.mem_map.2 ⟨t, ht, by simpa using hts⟩
        have hs_seen : s ∈ seen := ((hmem s).1 hs_mem).1
        rw [Finset.insert_eq_self.2 hs_seen]
        exact ⟨hpw, hlen, hmem⟩
    | false =>
        rw [processLedger_of_fresh now st hv hd]
        have hs_not : (newLedgerOf now L s).seq ∉ st.ledgers.map Ledger.seq := by
          intro hs
          rcases List.mem_map.1 hs with ⟨t, ht, hts⟩
          have hany : st.ledgers.any (fun l => l.seq == s) = true :=
            List.any_eq_true.2 ⟨t, ht, by simp [hts, newLedgerOf]⟩
          rw [hd] at hany
          exact Bool.false_ne_true hany
        have hmain := storeInv_insert_lists hpw hlen hmem hs_not
        unfold StoreInv
        rw [processLedgerAccepted_ledgers]
        exact hmain

theorem storeInv_ingestAll (evs : List (Int × RawLedger)) :
    ∀ (st : EngineState) (seen : Finset Nat), StoreInv st seen →
      StoreInv (ingestAll st evs)
        (evs.foldl (fun s e => eventInsert s e.2) seen) := by
  induction evs with
  | nil => intro st seen h; exact h
  | cons e evs ih =>
      intro st seen h
      exact ih _ _ (storeInv_step h e.1 e.2)

/-- **C7**.  Bounded session store: after any sequence of `processLedger`
calls from a fresh engine, the stored ledger count never exceeds
`MAX_LEDGERS`, and a sequence is stored exactly when it was seen (valid
events only) and fewer than `MAX_LEDGERS` seen sequences exceed it — the
retained set is always the `MAX_LEDGERS` highest-sequence ledgers seen so
far, the evicted ones always the lowest. -/
theorem claim7_bounded_store (evs : List (Int × RawLedger)) :
    (ingestAll initState evs).ledgers.length ≤ MAX_LEDGERS ∧
    ∀ q : Nat, q ∈ (ingestAll initState evs).ledgers.map Ledger.seq ↔
      q ∈ seenSeqs evs ∧
        ((seenSeqs evs).filter (fun r => q < r)).card < MAX_LEDGERS := by
  have hbase : StoreInv initState ∅ := by
    refine ⟨List.Pairwise.nil, by simp [initState], ?_⟩
    intro q
    simp [initState]
  have h := storeInv_ingestAll evs initState ∅ hbase
  obtain ⟨hpw, hlen, hmem⟩ := h
  exact ⟨by rw [hlen]; omega, hmem⟩

end PftMetrics
